import Mathlib

/-!
Shallow embedding of the spike cache simulator (`riscv/cachesim.h`,
`riscv/cachesim.cc`).

Machine integers are modelled as `Nat`: every value the program stores in a
`uint64_t` is below `2^64`, and an explicit `% 2^64` is written at the one
place where a C shift could wrap (the reconstruction of a dirty victim's
address).  The seven statistics counters are modelled as unbounded naturals;
they grow by at most one (or by `bytes`) per operation, and no claim depends
on their wrap-around.  A cache engine's `miss_handler` pointer is modelled as
a presence flag, and the calls an engine forwards to its next level are
returned as an explicit list of records instead of being executed, which is
what the claims about forwarded accesses quantify over.
-/

/-- `cache_sim_t::VALID` (cachesim.h:122): `1ULL << 63`. -/
def VALID : Nat := 1 <<< 63

/-- `cache_sim_t::DIRTY` (cachesim.h:123): `1ULL << 62`. -/
def DIRTY : Nat := 1 <<< 62

/-- Bitwise complement within a 64-bit word: `~m` on a `uint64_t`. -/
def NOT64 (m : Nat) : Nat := (2 ^ 64 - 1) ^^^ m

/-- Seed of `lfsr_t` (cachesim.h:27): the register starts at 1. -/
def lfsr_seed : Nat := 1

/-- `lfsr_t::next` (cachesim.h:44): `reg = (reg>>1)^(-(reg&1) & 0xd0000001)`.
`-(reg&1)` on a `uint32_t` is `(2^32 - (reg&1)) % 2^32`. -/
def lfsr_next (reg : Nat) : Nat :=
  (reg >>> 1) ^^^ (((2 ^ 32 - (reg &&& 1)) % 2 ^ 32) &&& 0xd0000001)

/-- The `isspace` characters skipped by C `atoi`. -/
def isSpaceC (c : Char) : Bool :=
  c = ' ' || c = '\t' || c = '\n' || c = '\x0b' || c = '\x0c' || c = '\r'

/-- Digit-accumulation loop of C `atoi`: consumes decimal digits until the
first non-digit and returns the accumulated value. -/
def atoiDigits : List Char → Nat → Nat
  | [], acc => acc
  | c :: rest, acc =>
    if c.isDigit then atoiDigits rest (acc * 10 + (c.toNat - 48)) else acc

/-- C `atoi`: skip whitespace, an optional sign, then digits; a string with no
leading digits yields 0. -/
def atoiInt (s : List Char) : Int :=
  match s.dropWhile isSpaceC with
  | '-' :: rest => - (atoiDigits rest 0 : Int)
  | '+' :: rest => (atoiDigits rest 0 : Int)
  | t => (atoiDigits t 0 : Int)

/-- Conversion of the `int` returned by `atoi` to the `size_t` the parsed
fields are stored in (64-bit, two's complement wrap for negatives). -/
def toSize (i : Int) : Nat := (i % (2 ^ 64 : Int)).toNat

/-- `strchr(s, ':')` followed by the post-increment in
`cache_sim_t::construct` (cachesim.cc:48-51): splits at the first colon,
giving the characters before it and the characters after it.  `construct`
passes the prefix plus the trailing colon to `atoi`; since `atoi` stops at the
first non-digit, parsing the prefix alone is equivalent. -/
def splitAtColon : List Char → Option (List Char × List Char)
  | [] => none
  | c :: rest =>
    if c = ':' then some ([], rest)
    else
      match splitAtColon rest with
      | none => none
      | some (pre, post) => some (c :: pre, post)

/-- Which engine subclass `cache_sim_t::construct` instantiates. -/
inductive CacheKind
  | sa
  | fa
deriving DecidableEq

/-- The three parsed configuration fields. -/
structure Config where
  sets : Nat
  ways : Nat
  linesz : Nat
deriving DecidableEq

/-- The validation in `cache_sim_t::init` (cachesim.cc:70-73): `help()` (exit)
when `sets` is zero or not a power of two, or when `linesz` is below 8 or not
a power of two.  `ways` is not examined. -/
def initChecks (sets linesz : Nat) : Bool :=
  if sets = 0 ∨ sets &&& (sets - 1) ≠ 0 then false
  else if linesz < 8 ∨ linesz &&& (linesz - 1) ≠ 0 then false
  else true

/-- `cache_sim_t::construct` (cachesim.cc:46-60): parse `sets:ways:blocksize`,
pick the fully-associative subclass when `ways > 4 && sets == 1`, and run the
`init` validation (both subclasses run it from their constructor).  `none`
models the fatal `help()` exit. -/
def construct (config : List Char) : Option (CacheKind × Config) :=
  match splitAtColon config with
  | none => none
  | some (f1, r1) =>
    match splitAtColon r1 with
    | none => none
    | some (f2, r2) =>
      let sets := toSize (atoiInt f1)
      let ways := toSize (atoiInt f2)
      let linesz := toSize (atoiInt r2)
      let kind := if 4 < ways ∧ sets = 1 then CacheKind.fa else CacheKind.sa
      if initChecks sets linesz then some (kind, ⟨sets, ways, linesz⟩) else none

/-- The `idx_shift` loop in `cache_sim_t::init` (cachesim.cc:75-77):
`for (x = linesz; x > 1; x >>= 1) idx_shift++`, as structural recursion on a
fuel bound; `x` halves each iteration, so any fuel `≥ x` is enough. -/
def idxShiftAux : Nat → Nat → Nat
  | 0, _ => 0
  | fuel + 1, x => if 1 < x then idxShiftAux fuel (x >>> 1) + 1 else 0

/-- `idx_shift` computed from `linesz` (see `idxShiftAux`). -/
def idxShiftOf (x : Nat) : Nat := idxShiftAux x x

/-- State of a `cache_sim_t` (cachesim.h:146-165).  `tags` is the flat
`sets*ways` array; `has_miss_handler` models whether the `miss_handler`
pointer is non-null; `lfsr` is the 32-bit register of the member `lfsr_t`. -/
structure CacheSim where
  sets : Nat
  ways : Nat
  linesz : Nat
  idx_shift : Nat
  tags : List Nat
  lfsr : Nat
  read_accesses : Nat
  read_misses : Nat
  bytes_read : Nat
  write_accesses : Nat
  write_misses : Nat
  bytes_written : Nat
  writebacks : Nat
  has_miss_handler : Bool
  log : Bool
deriving DecidableEq

/-- `cache_sim_t::init` tail (cachesim.cc:75-88): zeroed tag array, zeroed
counters, null miss handler; the constructor (cachesim.cc:18-22) starts with
logging disabled and the LFSR at its seed. -/
def mkCache (sets ways linesz : Nat) : CacheSim where
  sets := sets
  ways := ways
  linesz := linesz
  idx_shift := idxShiftOf linesz
  tags := List.replicate (sets * ways) 0
  lfsr := lfsr_seed
  read_accesses := 0
  read_misses := 0
  bytes_read := 0
  write_accesses := 0
  write_misses := 0
  bytes_written := 0
  writebacks := 0
  has_miss_handler := false
  log := false

/-- `cache_sim_t::set_miss_handler` (cachesim.h:99), as a presence flag. -/
def set_miss_handler (c : CacheSim) (mh : Bool) : CacheSim :=
  { c with has_miss_handler := mh }

/-- The fields of `cache_sim_t` that the copy constructor (cachesim.cc:97-103)
leaves uninitialized: the seven statistics counters and the `miss_handler`
pointer are in no mem-initializer list and are not assigned in the body, so
they hold indeterminate values; they are therefore passed in explicitly. -/
structure UninitFields where
  read_accesses : Nat
  read_misses : Nat
  bytes_read : Nat
  write_accesses : Nat
  write_misses : Nat
  bytes_written : Nat
  writebacks : Nat
  has_miss_handler : Bool
deriving DecidableEq

/-- `cache_sim_t::cache_sim_t(const cache_sim_t&)` (cachesim.cc:97-103):
copies the four geometry fields and `memcpy`s the tag array, sets `log` to
false; the member `lfsr_t` is default-initialized back to the seed, and the
counters and `miss_handler` are left indeterminate (`u`). -/
def copy_ctor (rhs : CacheSim) (u : UninitFields) : CacheSim where
  sets := rhs.sets
  ways := rhs.ways
  linesz := rhs.linesz
  idx_shift := rhs.idx_shift
  tags := rhs.tags
  lfsr := lfsr_seed
  read_accesses := u.read_accesses
  read_misses := u.read_misses
  bytes_read := u.bytes_read
  write_accesses := u.write_accesses
  write_misses := u.write_misses
  bytes_written := u.bytes_written
  writebacks := u.writebacks
  has_miss_handler := u.has_miss_handler
  log := false

/-- The scan loop of `cache_sim_t::check_tag` (cachesim.cc:157-159):
`for (i = 0; i < ways; i++) if (tag == (tags[idx*ways+i] & ~DIRTY)) return
&tags[idx*ways+i]`, as structural recursion on the number of remaining
iterations.  Returns the flat index of the first matching slot (the pointer
the C code returns). -/
def scanGo (ways : Nat) (tags : List Nat) (idx tag : Nat) :
    Nat → Nat → Option Nat
  | 0, _ => none
  | fuel + 1, i =>
    if i < ways then
      if tag = (tags.getD (idx * ways + i) 0) &&& NOT64 DIRTY then
        some (idx * ways + i)
      else
        scanGo ways tags idx tag fuel (i + 1)
    else none

/-- The scan of `check_tag` starting at way `i` (fuel `ways - i` covers all
remaining iterations). -/
def scanWays (ways : Nat) (tags : List Nat) (idx tag i : Nat) : Option Nat :=
  scanGo ways tags idx tag (ways - i) i

/-- `cache_sim_t::check_tag` (cachesim.cc:152-162). -/
def check_tag (c : CacheSim) (addr : Nat) : Option Nat :=
  scanWays c.ways c.tags ((addr >>> c.idx_shift) &&& (c.sets - 1))
    ((addr >>> c.idx_shift) ||| VALID) 0

/-- `cache_sim_t::victimize` (cachesim.cc:170-177): advance the LFSR, pick
`way = lfsr.next() % ways`, overwrite that slot of the addressed set with
`(addr >> idx_shift) | VALID` and return the slot's prior contents. -/
def victimize (c : CacheSim) (addr : Nat) : CacheSim × Nat :=
  let idx := (addr >>> c.idx_shift) &&& (c.sets - 1)
  let r := lfsr_next c.lfsr
  let way := r % c.ways
  let victim := c.tags.getD (idx * c.ways + way) 0
  ({ c with
      lfsr := r
      tags := c.tags.set (idx * c.ways + way) ((addr >>> c.idx_shift) ||| VALID) },
   victim)

/-- One access forwarded to the next-level engine
(`miss_handler->access(addr, bytes, store)`). -/
structure MemAccess where
  addr : Nat
  bytes : Nat
  store : Bool
deriving DecidableEq

/-- The unconditional counter update at the top of `cache_sim_t::access`
(cachesim.cc:189-190): bump the direction-appropriate access counter and add
`bytes` to the direction-appropriate byte counter. -/
def bump_counters (c : CacheSim) (bytes : Nat) (store : Bool) : CacheSim :=
  if store then
    { c with
        write_accesses := c.write_accesses + 1
        bytes_written := c.bytes_written + bytes }
  else
    { c with
        read_accesses := c.read_accesses + 1
        bytes_read := c.bytes_read + bytes }

/-- The miss-counter update of `cache_sim_t::access` (cachesim.cc:200). -/
def bump_miss (c : CacheSim) (store : Bool) : CacheSim :=
  if store then { c with write_misses := c.write_misses + 1 }
  else { c with read_misses := c.read_misses + 1 }

/-- `*slot |= DIRTY` through the pointer returned by `check_tag`
(cachesim.cc:196 and 222). -/
def set_dirty (c : CacheSim) (i : Nat) : CacheSim :=
  { c with tags := c.tags.set i ((c.tags.getD i 0) ||| DIRTY) }

/-- `cache_sim_t::access` (cachesim.cc:187-223).  Returns the new state and
the list of accesses forwarded to the next level, in program order.  The final
store-miss step `*check_tag(addr) |= DIRTY` dereferences the re-looked-up
slot; the `none` arm of that re-lookup models the null-pointer dereference
(left as the unchanged state; it is proved unreachable). -/
def access (c0 : CacheSim) (addr bytes : Nat) (store : Bool) :
    CacheSim × List MemAccess :=
  let c := bump_counters c0 bytes store
  match check_tag c addr with
  | some i => (if store then set_dirty c i else c, [])
  | none =>
    let c := bump_miss c store
    let v := victimize c addr
    let c1 := v.1
    let victim := v.2
    let wbout : List MemAccess :=
      if victim &&& (VALID ||| DIRTY) = VALID ||| DIRTY then
        if c1.has_miss_handler then
          [⟨((victim &&& NOT64 (VALID ||| DIRTY)) <<< c1.idx_shift) % 2 ^ 64,
            c1.linesz, true⟩]
        else []
      else []
    let c2 :=
      if victim &&& (VALID ||| DIRTY) = VALID ||| DIRTY then
        { c1 with writebacks := c1.writebacks + 1 }
      else c1
    let fetchout : List MemAccess :=
      if c2.has_miss_handler then
        [⟨addr &&& NOT64 (c2.linesz - 1), c2.linesz, false⟩]
      else []
    let c3 :=
      if store then
        match check_tag c2 addr with
        | some i => set_dirty c2 i
        | none => c2
      else c2
    (c3, wbout ++ fetchout)

/-- One `clean_invalidate` call forwarded to the next-level engine. -/
structure CleanInvalCall where
  addr : Nat
  bytes : Nat
  clean : Bool
  inval : Bool
deriving DecidableEq

/-- The per-line body of `cache_sim_t::clean_invalidate` (cachesim.cc:240-252):
look up the line; if resident, when `clean` and the slot is dirty count a
writeback and clear DIRTY, and when `inval` clear VALID. -/
def ci_step (clean inval : Bool) (c : CacheSim) (cur : Nat) : CacheSim :=
  match check_tag c cur with
  | none => c
  | some i =>
    let e := c.tags.getD i 0
    let wb := clean && decide (e &&& DIRTY ≠ 0)
    let e1 := if wb then e &&& NOT64 DIRTY else e
    let e2 := if inval then e1 &&& NOT64 VALID else e1
    { c with
        writebacks := if wb then c.writebacks + 1 else c.writebacks
        tags := c.tags.set i e2 }

/-- The line-aligned addresses visited by the loop of
`cache_sim_t::clean_invalidate` (cachesim.cc:236-254): from
`addr & ~(linesz-1)` up to `(addr + bytes + linesz-1) & ~(linesz-1)` in steps
of `linesz` (the end computation wraps at 64 bits). -/
def lineAddrs (c : CacheSim) (addr bytes : Nat) : List Nat :=
  let start_addr := addr &&& NOT64 (c.linesz - 1)
  let end_addr := ((addr + bytes + c.linesz - 1) % 2 ^ 64) &&& NOT64 (c.linesz - 1)
  let n := (end_addr - start_addr + c.linesz - 1) / c.linesz
  (List.range n).map (fun k => start_addr + k * c.linesz)

/-- `cache_sim_t::clean_invalidate` (cachesim.cc:234-257): process every line
of the covering range, then forward the identical call to the next level when
one is linked. -/
def clean_invalidate (c : CacheSim) (addr bytes : Nat) (clean inval : Bool) :
    CacheSim × List CleanInvalCall :=
  let c2 := (lineAddrs c addr bytes).foldl (ci_step clean inval) c
  (c2, if c2.has_miss_handler then [⟨addr, bytes, clean, inval⟩] else [])

/-- State of a `fa_cache_sim_t` (cachesim.h:177-220).  `tags` models the
`std::map<uint64_t, uint64_t>` as an association list kept in ascending key
order (the map's iteration order). -/
structure FaCache where
  ways : Nat
  linesz : Nat
  idx_shift : Nat
  tags : List (Nat × Nat)
  lfsr : Nat
  read_accesses : Nat
  read_misses : Nat
  bytes_read : Nat
  write_accesses : Nat
  write_misses : Nat
  bytes_written : Nat
  writebacks : Nat
  has_miss_handler : Bool
  log : Bool
deriving DecidableEq

/-- `std::map::find`: the value stored at key `k`, if any. -/
def mapFind (k : Nat) : List (Nat × Nat) → Option Nat
  | [] => none
  | (k1, v) :: rest => if k = k1 then some v else mapFind k rest

/-- `std::map::operator[]` assignment: insert or overwrite at key `k`,
keeping the list in ascending key order. -/
def mapInsert (k v : Nat) : List (Nat × Nat) → List (Nat × Nat)
  | [] => [(k, v)]
  | (k1, v1) :: rest =>
    if k < k1 then (k, v) :: (k1, v1) :: rest
    else if k = k1 then (k, v) :: rest
    else (k1, v1) :: mapInsert k v rest

/-- Writing through the pointer/iterator obtained from `find`: replace the
value stored at key `k` (no-op when the key is absent). -/
def mapSet (k v : Nat) : List (Nat × Nat) → List (Nat × Nat)
  | [] => []
  | (k1, v1) :: rest =>
    if k = k1 then (k, v) :: rest else (k1, v1) :: mapSet k v rest

/-- `fa_cache_sim_t` constructor (cachesim.cc:267-270): a `cache_sim_t` with
one set whose tag store is an empty map. -/
def mkFaCache (ways linesz : Nat) : FaCache where
  ways := ways
  linesz := linesz
  idx_shift := idxShiftOf linesz
  tags := []
  lfsr := lfsr_seed
  read_accesses := 0
  read_misses := 0
  bytes_read := 0
  write_accesses := 0
  write_misses := 0
  bytes_written := 0
  writebacks := 0
  has_miss_handler := false
  log := false

/-- `fa_cache_sim_t::check_tag` (cachesim.cc:278-282): a raw lookup of
`addr >> idx_shift` in the map; the stored word is returned whether or not its
VALID bit is set. -/
def fa_check_tag (f : FaCache) (addr : Nat) : Option Nat :=
  mapFind (addr >>> f.idx_shift) f.tags

/-- `fa_cache_sim_t::victimize` (cachesim.cc:290-302): when the map holds
exactly `ways` entries, erase the entry at position `lfsr.next() % ways` of
the ascending-key iteration order and remember its value; then insert
`(addr >> idx_shift) | VALID` at key `addr >> idx_shift`. -/
def fa_victimize (f : FaCache) (addr : Nat) : FaCache × Nat :=
  let fv :=
    if f.tags.length = f.ways then
      let r := lfsr_next f.lfsr
      let k := r % f.ways
      ({ f with lfsr := r, tags := f.tags.eraseIdx k }, (f.tags.getD k (0, 0)).2)
    else (f, 0)
  let f1 := fv.1
  ({ f1 with
      tags := mapInsert (addr >>> f.idx_shift) ((addr >>> f.idx_shift) ||| VALID)
        f1.tags },
   fv.2)

/-- The counter update at the top of `access` for a `fa_cache_sim_t`. -/
def fa_bump_counters (f : FaCache) (bytes : Nat) (store : Bool) : FaCache :=
  if store then
    { f with
        write_accesses := f.write_accesses + 1
        bytes_written := f.bytes_written + bytes }
  else
    { f with
        read_accesses := f.read_accesses + 1
        bytes_read := f.bytes_read + bytes }

/-- The miss-counter update of `access` for a `fa_cache_sim_t`. -/
def fa_bump_miss (f : FaCache) (store : Bool) : FaCache :=
  if store then { f with write_misses := f.write_misses + 1 }
  else { f with read_misses := f.read_misses + 1 }

/-- `*slot |= DIRTY` through the map iterator returned by the
fully-associative `check_tag`: overwrite the value stored at the line's
key. -/
def fa_set_dirty (f : FaCache) (addr v : Nat) : FaCache :=
  { f with tags := mapSet (addr >>> f.idx_shift) (v ||| DIRTY) f.tags }

/-- `cache_sim_t::access` as executed by a `fa_cache_sim_t` (the virtual
`check_tag`/`victimize` resolve to the map-based versions; the hit-path and
store-miss `*hit_way |= DIRTY` writes go through the found map entry). -/
def fa_access (f0 : FaCache) (addr bytes : Nat) (store : Bool) :
    FaCache × List MemAccess :=
  let f := fa_bump_counters f0 bytes store
  match fa_check_tag f addr with
  | some v => (if store then fa_set_dirty f addr v else f, [])
  | none =>
    let f := fa_bump_miss f store
    let fv := fa_victimize f addr
    let f1 := fv.1
    let victim := fv.2
    let wbout : List MemAccess :=
      if victim &&& (VALID ||| DIRTY) = VALID ||| DIRTY then
        if f1.has_miss_handler then
          [⟨((victim &&& NOT64 (VALID ||| DIRTY)) <<< f1.idx_shift) % 2 ^ 64,
            f1.linesz, true⟩]
        else []
      else []
    let f2 :=
      if victim &&& (VALID ||| DIRTY) = VALID ||| DIRTY then
        { f1 with writebacks := f1.writebacks + 1 }
      else f1
    let fetchout : List MemAccess :=
      if f2.has_miss_handler then
        [⟨addr &&& NOT64 (f2.linesz - 1), f2.linesz, false⟩]
      else []
    let f3 :=
      if store then
        match fa_check_tag f2 addr with
        | some v => fa_set_dirty f2 addr v
        | none => f2
      else f2
    (f3, wbout ++ fetchout)

/-- The per-line body of `clean_invalidate` as executed by a
`fa_cache_sim_t` (writes go through the found map entry). -/
def fa_ci_step (clean inval : Bool) (f : FaCache) (cur : Nat) : FaCache :=
  match fa_check_tag f cur with
  | none => f
  | some v =>
    let wb := clean && decide (v &&& DIRTY ≠ 0)
    let v1 := if wb then v &&& NOT64 DIRTY else v
    let v2 := if inval then v1 &&& NOT64 VALID else v1
    { f with
        writebacks := if wb then f.writebacks + 1 else f.writebacks
        tags := mapSet (cur >>> f.idx_shift) v2 f.tags }

/-- `clean_invalidate` as executed by a `fa_cache_sim_t`. -/
def fa_clean_invalidate (f : FaCache) (addr bytes : Nat) (clean inval : Bool) :
    FaCache × List CleanInvalCall :=
  let start_addr := addr &&& NOT64 (f.linesz - 1)
  let end_addr := ((addr + bytes + f.linesz - 1) % 2 ^ 64) &&& NOT64 (f.linesz - 1)
  let n := (end_addr - start_addr + f.linesz - 1) / f.linesz
  let lines := (List.range n).map (fun k => start_addr + k * f.linesz)
  let f2 := lines.foldl (fa_ci_step clean inval) f
  (f2, if f2.has_miss_handler then [⟨addr, bytes, clean, inval⟩] else [])

/-- An operation of the public mutating interface of a cache engine. -/
inductive FaOp
  | acc (addr bytes : Nat) (store : Bool)
  | ci (addr bytes : Nat) (clean inval : Bool)

/-- Run one interface operation on a fully-associative engine. -/
def fa_step (f : FaCache) : FaOp → FaCache
  | .acc a b s => (fa_access f a b s).1
  | .ci a b cl iv => (fa_clean_invalidate f a b cl iv).1

/-- Run a sequence of interface operations on a fully-associative engine. -/
def fa_run (f : FaCache) (ops : List FaOp) : FaCache :=
  ops.foldl fa_step f

/-- Keys strictly ascending: the `std::map` iteration-order invariant. -/
def MapSorted (l : List (Nat × Nat)) : Prop :=
  List.Pairwise (fun p q => p.1 < q.1) l

/-- A resident line whose slot is dirty: the lines `clean_invalidate`
writes back. -/
def residentDirty (c : CacheSim) (a : Nat) : Bool :=
  match check_tag c a with
  | some i => decide ((c.tags.getD i 0) &&& DIRTY ≠ 0)
  | none => false

/-- Wellformedness of a constructed `cache_sim_t`: what `init`'s validation
(cachesim.cc:70-77) guarantees about a successfully constructed engine, plus
the tag-array length.  `linesz ≥ 8` gives `idx_shift ≥ 3`, and `linesz` fits a
`size_t` parsed from `atoi`, so `idx_shift < 64`. -/
structure WF (c : CacheSim) : Prop where
  sets_pos : 1 ≤ c.sets
  ways_pos : 1 ≤ c.ways
  shift_ge : 3 ≤ c.idx_shift
  shift_lt : c.idx_shift < 64
  linesz_eq : c.linesz = 2 ^ c.idx_shift
  tags_len : c.tags.length = c.sets * c.ways

/-! ### Concrete states and inputs used by individual witness and
counterexample theorems -/

/-- The configuration string `"16:0:64"` (a `ways = 0` configuration). -/
def cfgWaysZero : List Char := ['1', '6', ':', '0', ':', '6', '4']

/-- The configuration string `"1:8:64"` of spec scenario B. -/
def cfgScenB1 : List Char := ['1', ':', '8', ':', '6', '4']

/-- The configuration string `"4:2:64"` of spec scenario B. -/
def cfgScenB2 : List Char := ['4', ':', '2', ':', '6', '4']

/-- A source engine state with nonzero statistics counters. -/
def rhsWithStats : CacheSim :=
  { sets := 1, ways := 1, linesz := 8, idx_shift := 3, tags := [3], lfsr := 99,
    read_accesses := 7, read_misses := 1, bytes_read := 2, write_accesses := 3,
    write_misses := 4, bytes_written := 5, writebacks := 6,
    has_miss_handler := true, log := true }

/-- One choice of values for the copy constructor's uninitialized fields. -/
def uninitZero : UninitFields :=
  { read_accesses := 0, read_misses := 0, bytes_read := 0, write_accesses := 0,
    write_misses := 0, bytes_written := 0, writebacks := 0,
    has_miss_handler := false }

/-- A fresh 8-way fully-associative engine with 64-byte lines. -/
def faFresh : FaCache := mkFaCache 8 64

/-- `faFresh` after a read of address 0 (installs line 0). -/
def faLine0 : FaCache := (fa_access faFresh 0 1 false).1

/-- `faLine0` after `clean_invalidate(0, 64, clean=false, inval=true)`: the
map still holds key 0, but the stored word's VALID bit has been cleared. -/
def faLine0Inval : FaCache := (fa_clean_invalidate faLine0 0 64 false true).1

/-- A 1-set 1-way engine whose only slot holds a valid clean line with
tag 0. -/
def cOneValid : CacheSim :=
  { sets := 1, ways := 1, linesz := 8, idx_shift := 3, tags := [VALID],
    lfsr := lfsr_seed, read_accesses := 0, read_misses := 0, bytes_read := 0,
    write_accesses := 0, write_misses := 0, bytes_written := 0, writebacks := 0,
    has_miss_handler := false, log := false }

/-- A 1-set 1-way engine with a linked next level whose only slot holds a
valid dirty line with tag 1 (line address 8). -/
def cDirtyVictim : CacheSim :=
  { sets := 1, ways := 1, linesz := 8, idx_shift := 3,
    tags := [1 ||| VALID ||| DIRTY], lfsr := lfsr_seed, read_accesses := 0,
    read_misses := 0, bytes_read := 0, write_accesses := 0, write_misses := 0,
    bytes_written := 0, writebacks := 0, has_miss_handler := true, log := false }

/-- A 1-set 2-way engine with a linked next level: way 0 holds dirty line 0,
way 1 holds clean line 1 (line address 8). -/
def cTwoLines : CacheSim :=
  { sets := 1, ways := 2, linesz := 8, idx_shift := 3,
    tags := [0 ||| VALID ||| DIRTY, 1 ||| VALID], lfsr := lfsr_seed,
    read_accesses := 0, read_misses := 0, bytes_read := 0, write_accesses := 0,
    write_misses := 0, bytes_written := 0, writebacks := 0,
    has_miss_handler := true, log := false }

/-- A 2-way fully-associative engine at capacity (resident lines 0 and 5). -/
def faFull : FaCache :=
  { ways := 2, linesz := 64, idx_shift := 6,
    tags := [(0, VALID), (5, 5 ||| VALID)], lfsr := lfsr_seed,
    read_accesses := 0, read_misses := 0, bytes_read := 0, write_accesses := 0,
    write_misses := 0, bytes_written := 0, writebacks := 0,
    has_miss_handler := false, log := false }

/-! ### Bit-level helper lemmas -/

theorem valid_eq : VALID = 2 ^ 63 := by
  simp [VALID, Nat.shiftLeft_eq]

theorem dirty_eq : DIRTY = 2 ^ 62 := by
  simp [DIRTY, Nat.shiftLeft_eq]


theorem testBit_NOT64 (m i : Nat) :
    (NOT64 m).testBit i = ((decide (i < 64)).xor (m.testBit i)) := by
  have h : NOT64 m = (2 ^ 64 - 1) ^^^ m := rfl
  rw [h, Nat.testBit_xor, Nat.testBit_two_pow_sub_one]

theorem testBit_ge_64 {a : Nat} (ha : a < 2 ^ 64) {i : Nat} (hi : 64 ≤ i) :
    a.testBit i = false :=
  Nat.testBit_lt_two_pow (lt_of_lt_of_le ha (Nat.pow_le_pow_right (by omega) hi))

theorem tag_lt {a s : Nat} (ha : a < 2 ^ 64) (hs : 3 ≤ s) : a >>> s < 2 ^ 62 := by
  rw [Nat.shiftRight_eq_div_pow]
  have h1 : a / 2 ^ s ≤ a / 2 ^ 3 :=
    Nat.div_le_div_left (Nat.pow_le_pow_right (by omega) hs) (by norm_num)
  have h2 : a / 2 ^ 3 < 2 ^ 61 := by
    rw [Nat.div_lt_iff_lt_mul (by norm_num)]
    calc a < 2 ^ 64 := ha
    _ = 2 ^ 61 * 2 ^ 3 := by norm_num
  calc a / 2 ^ s ≤ a / 2 ^ 3 := h1
  _ < 2 ^ 61 := h2
  _ < 2 ^ 62 := by norm_num

theorem or_valid_and_not_dirty {x : Nat} (h : x < 2 ^ 62) :
    (x ||| VALID) &&& NOT64 DIRTY = x ||| VALID := by
  apply Nat.eq_of_testBit_eq
  intro i
  simp only [Nat.testBit_and, Nat.testBit_or, testBit_NOT64, valid_eq, dirty_eq,
    Nat.testBit_two_pow]
  rcases Nat.lt_or_ge i 62 with hi | hi
  · have h63 : ¬ (63 = i) := by omega
    have h62 : ¬ (62 = i) := by omega
    have h64 : i < 64 := by omega
    simp [h63, h62, h64]
  · rcases Nat.eq_or_lt_of_le hi with hi62 | hi'
    · have hx : x.testBit 62 = false := Nat.testBit_lt_two_pow h
      simp [← hi62, hx]
    · have h62 : ¬ (62 = i) := by omega
      by_cases h63 : 63 = i
      · simp [← h63]
      · have hx : x.testBit i = false :=
          Nat.testBit_lt_two_pow
            (lt_of_lt_of_le h (Nat.pow_le_pow_right (by omega) (by omega)))
        simp [h62, h63, hx]

theorem or_valid_eq_add {x : Nat} (h : x < 2 ^ 63) : x ||| VALID = 2 ^ 63 + x := by
  calc x ||| VALID = VALID ||| x := Nat.or_comm _ _
  _ = 2 ^ 63 * 1 ||| x := by rw [valid_eq, Nat.mul_one]
  _ = 2 ^ 63 * 1 + x := (Nat.mul_add_lt_is_or h 1).symm
  _ = 2 ^ 63 + x := by rw [Nat.mul_one]

theorem or_valid_inj {x y : Nat} (hx : x < 2 ^ 63) (hy : y < 2 ^ 63) :
    (x ||| VALID = y ||| VALID) ↔ x = y := by
  rw [or_valid_eq_add hx, or_valid_eq_add hy]
  omega

theorem or_valid_ne_zero (x : Nat) : x ||| VALID ≠ 0 := by
  have hle : VALID ≤ x ||| VALID := by
    apply Nat.le_of_testBit
    intro i hi
    rw [Nat.testBit_or, hi, Bool.or_true]
  have hpos : 0 < VALID := by rw [valid_eq]; positivity
  omega

theorem and_nd_idem (e : Nat) :
    (e &&& NOT64 DIRTY) &&& NOT64 DIRTY = e &&& NOT64 DIRTY := by
  rw [Nat.and_assoc, Nat.and_self]

theorem invalid_no_match {e : Nat} (he : e &&& VALID = 0) (x : Nat) :
    e &&& NOT64 DIRTY ≠ x ||| VALID := by
  intro h
  have hV : VALID.testBit 63 = true := by
    rw [valid_eq]; exact Nat.testBit_two_pow_self
  have h63 : e.testBit 63 = false := by
    have h0 : (e &&& VALID).testBit 63 = false := by
      rw [he]; exact Nat.zero_testBit _
    rwa [Nat.testBit_and, hV, Bool.and_true] at h0
  have hc := congrArg (fun n => n.testBit 63) h
  simp only [Nat.testBit_and, Nat.testBit_or, h63, hV, Bool.false_and,
    Bool.or_true] at hc
  exact Bool.false_ne_true hc

theorem and_not64_two_pow_self (e : Nat) {j : Nat} (hj : j < 64) :
    (e &&& NOT64 (2 ^ j)) &&& 2 ^ j = 0 := by
  apply Nat.eq_of_testBit_eq
  intro i
  simp only [Nat.testBit_and, testBit_NOT64, Nat.testBit_two_pow, Nat.zero_testBit]
  by_cases hij : j = i
  · subst hij
    simp [hj]
  · simp [hij]

theorem and_not64_two_pow_other (e : Nat) {j k : Nat} (hk : k < 64) (hne : j ≠ k) :
    (e &&& NOT64 (2 ^ j)) &&& 2 ^ k = e &&& 2 ^ k := by
  apply Nat.eq_of_testBit_eq
  intro i
  simp only [Nat.testBit_and, testBit_NOT64, Nat.testBit_two_pow]
  by_cases hik : k = i
  · subst hik
    have hjk : ¬ (j = k) := hne
    simp [hk, hjk]
  · simp [hik]

theorem and_not64_mask {a : Nat} (s : Nat) (ha : a < 2 ^ 64) :
    a &&& NOT64 (2 ^ s - 1) = 2 ^ s * (a / 2 ^ s) := by
  have hrw : 2 ^ s * (a / 2 ^ s) = (a / 2 ^ s) <<< s := by
    rw [Nat.shiftLeft_eq]; ring
  rw [hrw]
  apply Nat.eq_of_testBit_eq
  intro i
  have hdiv : a / 2 ^ s = a >>> s := (Nat.shiftRight_eq_div_pow a s).symm
  simp only [Nat.testBit_and, testBit_NOT64, Nat.testBit_two_pow_sub_one,
    Nat.testBit_shiftLeft, hdiv, Nat.testBit_shiftRight]
  rcases Nat.lt_or_ge i s with his | his
  · have h1 : ¬ s ≤ i := by omega
    by_cases hi64 : i < 64
    · simp [h1, his, hi64]
    · have h2 : a.testBit i = false := testBit_ge_64 ha (by omega)
      simp [h1, h2]
  · have h1 : ¬ i < s := by omega
    have hadd : s + (i - s) = i := by omega
    by_cases hi64 : i < 64
    · simp [h1, his, hi64, hadd]
    · have h2 : a.testBit i = false := testBit_ge_64 ha (by omega)
      simp [h1, his, hadd, h2, hi64]

/-! ### List and scan helper lemmas -/

theorem getD_set_self {l : List Nat} {n v : Nat} (h : n < l.length) :
    (l.set n v).getD n 0 = v := by
  rw [List.getD_eq_getElem?_getD, List.getElem?_set_self h]
  rfl

theorem getD_set_ne {l : List Nat} {n m v : Nat} (h : n ≠ m) :
    (l.set n v).getD m 0 = l.getD m 0 := by
  rw [List.getD_eq_getElem?_getD, List.getElem?_set_ne h,
    ← List.getD_eq_getElem?_getD]

theorem scanGo_eq_none_iff (w : Nat) (t : List Nat) (idx tag : Nat) :
    ∀ n i, w - i ≤ n →
      (scanGo w t idx tag n i = none ↔
        ∀ j, i ≤ j → j < w → tag ≠ (t.getD (idx * w + j) 0) &&& NOT64 DIRTY) := by
  intro n
  induction n with
  | zero =>
    intro i hle
    simp only [scanGo]
    constructor
    · intro _ j h1 h2
      omega
    · intro _
      trivial
  | succ n ih =>
    intro i hle
    simp only [scanGo]
    by_cases hw : i < w
    · rw [if_pos hw]
      by_cases hm : tag = (t.getD (idx * w + i) 0) &&& NOT64 DIRTY
      · rw [if_pos hm]
        constructor
        · intro hsome
          exact absurd hsome (by simp)
        · intro hall
          exact absurd hm (hall i le_rfl hw)
      · rw [if_neg hm]
        rw [ih (i + 1) (by omega)]
        constructor
        · intro hall j h1 h2
          rcases Nat.eq_or_lt_of_le h1 with rfl | hlt
          · exact hm
          · exact hall j hlt h2
        · intro hall j h1 h2
          exact hall j (by omega) h2
    · rw [if_neg hw]
      constructor
      · intro _ j h1 h2
        omega
      · intro _
        trivial

theorem scanWays_eq_none_iff (w : Nat) (t : List Nat) (idx tag : Nat) (i : Nat) :
    scanWays w t idx tag i = none ↔
      ∀ j, i ≤ j → j < w → tag ≠ (t.getD (idx * w + j) 0) &&& NOT64 DIRTY :=
  scanGo_eq_none_iff w t idx tag (w - i) i le_rfl

theorem scanGo_eq_some (w : Nat) (t : List Nat) (idx tag : Nat) :
    ∀ n i r, scanGo w t idx tag n i = some r →
      ∃ j, i ≤ j ∧ j < w ∧ r = idx * w + j ∧
        tag = (t.getD r 0) &&& NOT64 DIRTY := by
  intro n
  induction n with
  | zero =>
    intro i r h
    simp only [scanGo] at h
    exact absurd h (by simp)
  | succ n ih =>
    intro i r h
    simp only [scanGo] at h
    by_cases hw : i < w
    · rw [if_pos hw] at h
      by_cases hm : tag = (t.getD (idx * w + i) 0) &&& NOT64 DIRTY
      · rw [if_pos hm] at h
        obtain rfl : idx * w + i = r := Option.some_injective _ h
        exact ⟨i, le_rfl, hw, rfl, hm⟩
      · rw [if_neg hm] at h
        obtain ⟨j, h1, h2, h3, h4⟩ := ih (i + 1) r h
        exact ⟨j, by omega, h2, h3, h4⟩
    · rw [if_neg hw] at h
      exact absurd h (by simp)

theorem scanWays_eq_some (w : Nat) (t : List Nat) (idx tag : Nat) :
    ∀ i r, scanWays w t idx tag i = some r →
      ∃ j, i ≤ j ∧ j < w ∧ r = idx * w + j ∧
        tag = (t.getD r 0) &&& NOT64 DIRTY :=
  fun i r h => scanGo_eq_some w t idx tag (w - i) i r h

theorem scanWays_isSome_of {w : Nat} {t : List Nat} {idx tag : Nat} {i j : Nat}
    (hij : i ≤ j) (hj : j < w)
    (hm : tag = (t.getD (idx * w + j) 0) &&& NOT64 DIRTY) :
    (scanWays w t idx tag i).isSome = true := by
  rcases ho : scanWays w t idx tag i with _ | r
  · rw [scanWays_eq_none_iff] at ho
    exact absurd hm (ho j hij hj)
  · rfl

theorem scanGo_first {w : Nat} {t : List Nat} {idx tag : Nat} {j : Nat}
    (hj : j < w)
    (hm : tag = (t.getD (idx * w + j) 0) &&& NOT64 DIRTY)
    (hother : ∀ j2, j2 < w → j2 ≠ j →
      tag ≠ (t.getD (idx * w + j2) 0) &&& NOT64 DIRTY) :
    ∀ n i, w - i ≤ n → i ≤ j → scanGo w t idx tag n i = some (idx * w + j) := by
  intro n
  induction n with
  | zero =>
    intro i h1 h2
    exact absurd hj (by omega)
  | succ n ih =>
    intro i h1 h2
    simp only [scanGo]
    have hw : i < w := by omega
    rw [if_pos hw]
    by_cases hij : i = j
    · subst hij
      rw [if_pos hm]
    · have hne : tag ≠ (t.getD (idx * w + i) 0) &&& NOT64 DIRTY :=
        hother i hw hij
      rw [if_neg hne]
      exact ih (i + 1) (by omega) (by omega)

theorem scanWays_first {w : Nat} {t : List Nat} {idx tag : Nat} {j : Nat}
    (hj : j < w)
    (hm : tag = (t.getD (idx * w + j) 0) &&& NOT64 DIRTY)
    (hother : ∀ j2, j2 < w → j2 ≠ j →
      tag ≠ (t.getD (idx * w + j2) 0) &&& NOT64 DIRTY) :
    scanWays w t idx tag 0 = some (idx * w + j) :=
  scanGo_first hj hm hother (w - 0) 0 le_rfl (by omega)

theorem scanGo_congr (w : Nat) (t1 t2 : List Nat) (idx tag : Nat)
    (h : ∀ j, j < w →
      (t1.getD (idx * w + j) 0) &&& NOT64 DIRTY =
        (t2.getD (idx * w + j) 0) &&& NOT64 DIRTY) :
    ∀ n i, scanGo w t1 idx tag n i = scanGo w t2 idx tag n i := by
  intro n
  induction n with
  | zero =>
    intro i
    simp only [scanGo]
  | succ n ih =>
    intro i
    simp only [scanGo]
    by_cases hw : i < w
    · rw [if_pos hw, if_pos hw, h i hw]
      by_cases hm : tag = (t2.getD (idx * w + i) 0) &&& NOT64 DIRTY
      · rw [if_pos hm, if_pos hm]
      · rw [if_neg hm, if_neg hm]
        exact ih (i + 1)
    · rw [if_neg hw, if_neg hw]

theorem scanWays_congr (w : Nat) (t1 t2 : List Nat) (idx tag : Nat)
    (h : ∀ j, j < w →
      (t1.getD (idx * w + j) 0) &&& NOT64 DIRTY =
        (t2.getD (idx * w + j) 0) &&& NOT64 DIRTY) :
    ∀ i, scanWays w t1 idx tag i = scanWays w t2 idx tag i :=
  fun i => scanGo_congr w t1 t2 idx tag h (w - i) i

/-! ### check_tag characterizations -/

theorem check_tag_congr {c c2 : CacheSim} (addr : Nat)
    (hs : c.sets = c2.sets) (hw : c.ways = c2.ways) (hi : c.idx_shift = c2.idx_shift)
    (ht : ∀ j, (c.tags.getD j 0) &&& NOT64 DIRTY =
      (c2.tags.getD j 0) &&& NOT64 DIRTY) :
    check_tag c addr = check_tag c2 addr := by
  unfold check_tag
  rw [hs, hw, hi]
  exact scanWays_congr c2.ways c.tags c2.tags _ _ (fun j _ => ht _) 0

theorem check_tag_some {c : CacheSim} {addr i : Nat}
    (h : check_tag c addr = some i) :
    ∃ j, j < c.ways ∧ i = ((addr >>> c.idx_shift) &&& (c.sets - 1)) * c.ways + j ∧
      (addr >>> c.idx_shift) ||| VALID = (c.tags.getD i 0) &&& NOT64 DIRTY := by
  obtain ⟨j, _, hj, hr, hm⟩ := scanWays_eq_some _ _ _ _ 0 i h
  exact ⟨j, hj, hr, hm⟩

theorem check_tag_none {c : CacheSim} {addr : Nat}
    (h : check_tag c addr = none) :
    ∀ j, j < c.ways → (addr >>> c.idx_shift) ||| VALID ≠
      (c.tags.getD (((addr >>> c.idx_shift) &&& (c.sets - 1)) * c.ways + j) 0)
        &&& NOT64 DIRTY := by
  intro j hj
  exact (scanWays_eq_none_iff _ _ _ _ 0).1 h j (Nat.zero_le j) hj

theorem check_tag_lt {c : CacheSim} {addr i : Nat}
    (hlen : c.tags.length = c.sets * c.ways) (hsets : 1 ≤ c.sets)
    (h : check_tag c addr = some i) : i < c.tags.length := by
  obtain ⟨j, hj, hr, _⟩ := check_tag_some h
  have hidx : ((addr >>> c.idx_shift) &&& (c.sets - 1)) ≤ c.sets - 1 :=
    Nat.and_le_right
  have h2 : (((addr >>> c.idx_shift) &&& (c.sets - 1)) + 1) * c.ways ≤
      c.sets * c.ways := Nat.mul_le_mul_right _ (by omega)
  have h3 : ((addr >>> c.idx_shift) &&& (c.sets - 1)) * c.ways + j <
      (((addr >>> c.idx_shift) &&& (c.sets - 1)) + 1) * c.ways := by
    rw [Nat.succ_mul]
    omega
  rw [hlen, hr]
  omega

theorem check_tag_valid {c : CacheSim} {addr i : Nat}
    (h : check_tag c addr = some i) : (c.tags.getD i 0) &&& VALID ≠ 0 := by
  obtain ⟨j, hj, hr, hm⟩ := check_tag_some h
  intro hz
  exact invalid_no_match hz _ hm.symm

theorem check_tag_inj {c : CacheSim} {a b i : Nat}
    (hs : 3 ≤ c.idx_shift) (ha : a < 2 ^ 64) (hb : b < 2 ^ 64)
    (h1 : check_tag c a = some i) (h2 : check_tag c b = some i) :
    a >>> c.idx_shift = b >>> c.idx_shift := by
  obtain ⟨j1, _, _, hm1⟩ := check_tag_some h1
  obtain ⟨j2, _, _, hm2⟩ := check_tag_some h2
  exact (or_valid_inj (lt_trans (tag_lt ha hs) (by norm_num))
    (lt_trans (tag_lt hb hs) (by norm_num))).1 (hm1.trans hm2.symm)

/-! ### victimize lemmas -/

theorem victimize_pos_lt {c : CacheSim} (addr : Nat)
    (hlen : c.tags.length = c.sets * c.ways) (hsets : 1 ≤ c.sets)
    (hways : 1 ≤ c.ways) :
    ((addr >>> c.idx_shift) &&& (c.sets - 1)) * c.ways +
      lfsr_next c.lfsr % c.ways < c.tags.length := by
  have hidx : (addr >>> c.idx_shift) &&& (c.sets - 1) ≤ c.sets - 1 :=
    Nat.and_le_right
  have hway : lfsr_next c.lfsr % c.ways < c.ways := Nat.mod_lt _ (by omega)
  have h2 : (((addr >>> c.idx_shift) &&& (c.sets - 1)) + 1) * c.ways ≤
      c.sets * c.ways := Nat.mul_le_mul_right _ (by omega)
  have h3 : ((addr >>> c.idx_shift) &&& (c.sets - 1)) * c.ways +
      lfsr_next c.lfsr % c.ways <
      (((addr >>> c.idx_shift) &&& (c.sets - 1)) + 1) * c.ways := by
    rw [Nat.succ_mul]
    omega
  rw [hlen]
  omega

theorem check_tag_after_victimize_isSome {c : CacheSim} {addr : Nat}
    (hlen : c.tags.length = c.sets * c.ways) (hsets : 1 ≤ c.sets)
    (hways : 1 ≤ c.ways) (hs : 3 ≤ c.idx_shift) (ha : addr < 2 ^ 64) :
    (check_tag (victimize c addr).1 addr).isSome = true := by
  unfold check_tag victimize
  dsimp only
  apply scanWays_isSome_of (j := lfsr_next c.lfsr % c.ways) (Nat.zero_le _)
    (Nat.mod_lt _ (by omega))
  rw [getD_set_self (victimize_pos_lt addr hlen hsets hways)]
  exact (or_valid_and_not_dirty (tag_lt ha hs)).symm

theorem check_tag_after_victimize_miss {c : CacheSim} {addr : Nat}
    (hlen : c.tags.length = c.sets * c.ways) (hsets : 1 ≤ c.sets)
    (hways : 1 ≤ c.ways) (hs : 3 ≤ c.idx_shift) (ha : addr < 2 ^ 64)
    (hmiss : check_tag c addr = none) :
    check_tag (victimize c addr).1 addr =
      some (((addr >>> c.idx_shift) &&& (c.sets - 1)) * c.ways +
        lfsr_next c.lfsr % c.ways) := by
  unfold check_tag victimize
  dsimp only
  apply scanWays_first (Nat.mod_lt _ (by omega))
  · rw [getD_set_self (victimize_pos_lt addr hlen hsets hways)]
    exact (or_valid_and_not_dirty (tag_lt ha hs)).symm
  · intro j2 hj2 hne
    rw [getD_set_ne (by omega)]
    exact check_tag_none hmiss j2 hj2

/-! ### Power-of-two characterization of the `x & (x-1)` check -/

theorem and_pred_eq_zero_iff_pow2 {n : Nat} (hn : n ≠ 0) :
    n &&& (n - 1) = 0 ↔ ∃ k, n = 2 ^ k := by
  constructor
  · intro h
    obtain ⟨e, m, hm, rfl⟩ := Nat.exists_eq_two_pow_mul_odd hn
    obtain ⟨q, hq⟩ := hm
    by_cases h1 : m = 1
    · exact ⟨e, by rw [h1, Nat.mul_one]⟩
    · exfalso
      have hm2 : m ≥ 2 ^ 1 := by omega
      obtain ⟨j, hj1, hj2⟩ := Nat.ge_two_pow_implies_high_bit_true hm2
      have hpe : 1 ≤ 2 ^ e := Nat.one_le_two_pow
      have hx : 2 ^ e * (m - 1) + 2 ^ e = 2 ^ e * m := by
        rw [← Nat.mul_succ]
        congr 1
        omega
      have hn1 : 2 ^ e * m - 1 = 2 ^ e * (m - 1) + (2 ^ e - 1) := by omega
      have hjsub : (j - 1) + 1 = j := by omega
      have hmb : (m - 1).testBit j = true := by
        rw [← hjsub, Nat.testBit_add_one]
        have hdq : (m - 1) / 2 = q := by omega
        rw [hdq]
        rw [← hjsub, Nat.testBit_add_one] at hj2
        have hmq : m / 2 = q := by omega
        rwa [hmq] at hj2
      have hb1 : (2 ^ e * m).testBit (e + j) = true := by
        rw [Nat.mul_comm, ← Nat.shiftLeft_eq, Nat.testBit_shiftLeft]
        have h5 : e + j - e = j := by omega
        simp [h5, hj2]
      have hb2 : (2 ^ e * m - 1).testBit (e + j) = true := by
        rw [hn1, ← Nat.testBit_shiftRight]
        have hdiv : (2 ^ e * (m - 1) + (2 ^ e - 1)) >>> e = m - 1 := by
          rw [Nat.shiftRight_eq_div_pow, Nat.mul_add_div (Nat.two_pow_pos e),
            Nat.div_eq_of_lt (by omega), Nat.add_zero]
        rw [hdiv]
        exact hmb
      have hz := congrArg (fun x => x.testBit (e + j)) h
      simp only [Nat.testBit_and, hb1, hb2, Nat.zero_testBit, Bool.true_and] at hz
      exact absurd hz (by simp)
  · rintro ⟨k, rfl⟩
    rw [Nat.and_pow_two_sub_one_eq_mod]
    exact Nat.mod_self _

theorem initChecks_iff (sets linesz : Nat) :
    initChecks sets linesz = true ↔
      ((∃ k, sets = 2 ^ k) ∧ (∃ k, linesz = 2 ^ k ∧ 8 ≤ 2 ^ k)) := by
  unfold initChecks
  constructor
  · intro h
    by_cases c1 : sets = 0 ∨ sets &&& (sets - 1) ≠ 0
    · rw [if_pos c1] at h
      exact absurd h (by simp)
    · rw [if_neg c1] at h
      push_neg at c1
      by_cases c2 : linesz < 8 ∨ linesz &&& (linesz - 1) ≠ 0
      · rw [if_pos c2] at h
        exact absurd h (by simp)
      · push_neg at c2
        refine ⟨(and_pred_eq_zero_iff_pow2 c1.1).1 c1.2, ?_⟩
        obtain ⟨k, hk⟩ :=
          (and_pred_eq_zero_iff_pow2 (show linesz ≠ 0 by omega)).1 c2.2
        exact ⟨k, hk, hk ▸ c2.1⟩
  · rintro ⟨⟨k1, rfl⟩, ⟨k2, hk2, hk8⟩⟩
    subst hk2
    have hp1 : (2 : Nat) ^ k1 ≠ 0 := by positivity
    have hp2 : (2 : Nat) ^ k2 ≠ 0 := by positivity
    rw [if_neg, if_neg]
    · push_neg
      exact ⟨by omega, (and_pred_eq_zero_iff_pow2 hp2).2 ⟨k2, rfl⟩⟩
    · push_neg
      exact ⟨hp1, (and_pred_eq_zero_iff_pow2 hp1).2 ⟨k1, rfl⟩⟩

theorem mapFind_mapInsert_self (k v : Nat) :
    ∀ l : List (Nat × Nat), mapFind k (mapInsert k v l) = some v := by
  intro l
  induction l with
  | nil => simp [mapInsert, mapFind]
  | cons p rest ih =>
    obtain ⟨k1, v1⟩ := p
    unfold mapInsert
    by_cases h1 : k < k1
    · rw [if_pos h1]
      simp [mapFind]
    · rw [if_neg h1]
      by_cases h2 : k = k1
      · rw [if_pos h2]
        simp [mapFind]
      · rw [if_neg h2]
        unfold mapFind
        rw [if_neg h2]
        exact ih

/-! ### Claim theorems -/

/-- C4: the replacement generator holds a 32-bit register seeded to 1; each
`next()` shifts the register right by one bit, XORs the result with
0xD0000001 exactly when the bit shifted out was 1, and stores/returns the new
value; values stay below `2^32` and the sequence is deterministic and
bit-for-bit reproducible (first six values from the seed checked). -/
theorem claim_C4_lfsr :
    lfsr_seed = 1 ∧
    (∀ r, lfsr_next r =
      if r % 2 = 1 then (r >>> 1) ^^^ 0xd0000001 else r >>> 1) ∧
    (∀ r, r < 2 ^ 32 → lfsr_next r < 2 ^ 32) ∧
    (List.range 6).map (fun n => Nat.iterate lfsr_next (n + 1) lfsr_seed) =
      [0xd0000001, 0xb8000001, 0x8c000001, 0x96000001, 0x9b000001,
        0x9d800001] := by
  refine ⟨rfl, ?_, ?_, by decide⟩
  · intro r
    unfold lfsr_next
    rw [Nat.and_one_is_mod]
    by_cases h : r % 2 = 1
    · rw [if_pos h, h]
      congr 1
    · have h0 : r % 2 = 0 := by omega
      rw [if_neg h, h0]
      have hz : ((2 ^ 32 - (0 : Nat)) % 2 ^ 32) &&& 0xd0000001 = 0 := by decide
      rw [hz, Nat.xor_zero]
  · intro r hr
    unfold lfsr_next
    apply Nat.xor_lt_two_pow
    · have : r >>> 1 ≤ r := by
        rw [Nat.shiftRight_eq_div_pow]
        exact Nat.div_le_self _ _
      omega
    · exact lt_of_le_of_lt Nat.and_le_right (by norm_num)

theorem claim_C4_witness : lfsr_next 0xdeadbeef < 2 ^ 32 :=
  claim_C4_lfsr.2.2.1 0xdeadbeef (by decide)

/-- C10: with `idx_shift ≥ 3` (forced by `lineSize ≥ 8`), the tag value
`addr >> idx_shift` of any 64-bit address has neither the VALID nor the DIRTY
bit set, so stored tags never collide with the flag bits, and two addresses
produce equal stored tag words (`(a >> s) | VALID`) iff they lie in the same
line (`a / 2^s = b / 2^s`). -/
theorem claim_C10_tag_exact (s a b : Nat) (hs : 3 ≤ s)
    (ha : a < 2 ^ 64) (hb : b < 2 ^ 64) :
    (a >>> s) &&& (VALID ||| DIRTY) = 0 ∧
    (((a >>> s) ||| VALID = (b >>> s) ||| VALID) ↔ a / 2 ^ s = b / 2 ^ s) := by
  constructor
  · have h62 : a >>> s < 2 ^ 62 := tag_lt ha hs
    apply Nat.eq_of_testBit_eq
    intro i
    simp only [Nat.testBit_and, Nat.testBit_or, valid_eq, dirty_eq,
      Nat.testBit_two_pow, Nat.zero_testBit]
    by_cases h1 : 63 = i
    · have hf : (a >>> s).testBit i = false :=
        Nat.testBit_lt_two_pow (by rw [← h1]; omega)
      simp [hf]
    · by_cases h2 : 62 = i
      · have hf : (a >>> s).testBit i = false :=
          Nat.testBit_lt_two_pow (by rw [← h2]; omega)
        simp [hf]
      · simp [h1, h2]
  · have hsa : a >>> s = a / 2 ^ s := Nat.shiftRight_eq_div_pow a s
    have hsb : b >>> s = b / 2 ^ s := Nat.shiftRight_eq_div_pow b s
    rw [or_valid_inj (lt_trans (tag_lt ha hs) (by norm_num))
      (lt_trans (tag_lt hb hs) (by norm_num)), hsa, hsb]

theorem claim_C10_witness :
    ((64 >>> 6) &&& (VALID ||| DIRTY) = 0 ∧
      (((64 >>> 6) ||| VALID = (100 >>> 6) ||| VALID) ↔
        64 / 2 ^ 6 = 100 / 2 ^ 6)) :=
  claim_C10_tag_exact 6 64 100 (by decide) (by decide) (by decide)

/-- C2 (amended): copying a cache engine copies the geometry fields and the
tag-store contents, disables logging, and resets the LFSR to its seed; the
seven statistics counters and the next-level link are NOT copied — they are
left uninitialized (modelled by the arbitrary `u`). -/
theorem claim_C2_copy (rhs : CacheSim) (u : UninitFields) :
    (copy_ctor rhs u).sets = rhs.sets ∧
    (copy_ctor rhs u).ways = rhs.ways ∧
    (copy_ctor rhs u).linesz = rhs.linesz ∧
    (copy_ctor rhs u).idx_shift = rhs.idx_shift ∧
    (copy_ctor rhs u).tags = rhs.tags ∧
    (copy_ctor rhs u).log = false ∧
    (copy_ctor rhs u).lfsr = lfsr_seed ∧
    (copy_ctor rhs u).read_accesses = u.read_accesses ∧
    (copy_ctor rhs u).read_misses = u.read_misses ∧
    (copy_ctor rhs u).bytes_read = u.bytes_read ∧
    (copy_ctor rhs u).write_accesses = u.write_accesses ∧
    (copy_ctor rhs u).write_misses = u.write_misses ∧
    (copy_ctor rhs u).bytes_written = u.bytes_written ∧
    (copy_ctor rhs u).writebacks = u.writebacks ∧
    (copy_ctor rhs u).has_miss_handler = u.has_miss_handler :=
  ⟨rfl, rfl, rfl, rfl, rfl, rfl, rfl, rfl, rfl, rfl, rfl, rfl, rfl, rfl, rfl⟩

/-- C2 counterexample: for the source state `rhsWithStats` (whose
`read_accesses` is 7) and the indeterminate values `uninitZero`, the copy's
`read_accesses` counter differs from the source's — the copy constructor does
not copy the statistics counters. -/
theorem claim_C2_counterexample :
    (copy_ctor rhsWithStats uninitZero).read_accesses ≠
      rhsWithStats.read_accesses := by
  decide

/-- C3 (amended): in the set-associative engine, `check_tag` reports a match
only for a slot whose VALID flag is set and the comparison ignores only the
DIRTY bit; the fully-associative engine's `check_tag` is a raw key lookup
that ignores the flag bits entirely, so there an entry with VALID cleared
(for example after an invalidate) can still be returned as a hit. -/
theorem claim_C3_check_tag :
    (∀ (c : CacheSim) (addr i : Nat), check_tag c addr = some i →
      (c.tags.getD i 0) &&& VALID ≠ 0 ∧
      (c.tags.getD i 0) &&& NOT64 DIRTY = (addr >>> c.idx_shift) ||| VALID) ∧
    (∀ (f : FaCache) (addr : Nat),
      fa_check_tag f addr = mapFind (addr >>> f.idx_shift) f.tags) ∧
    (fa_check_tag faLine0Inval 0 = some 0 ∧ (0 : Nat) &&& VALID = 0) := by
  refine ⟨?_, fun f addr => rfl, by decide, by decide⟩
  intro c addr i h
  obtain ⟨j, hj, hr, hm⟩ := check_tag_some h
  exact ⟨check_tag_valid h, hm.symm⟩

theorem claim_C3_witness :
    (cOneValid.tags.getD 0 0) &&& VALID ≠ 0 ∧
    (cOneValid.tags.getD 0 0) &&& NOT64 DIRTY =
      (0 >>> cOneValid.idx_shift) ||| VALID :=
  claim_C3_check_tag.1 cOneValid 0 0 (by decide)

/-- C3 counterexample: in the fully-associative engine `faLine0Inval`
(line 0 loaded, then invalidated), the map still holds key 0 with the VALID
bit cleared, yet `check_tag` returns a match and a subsequent read of
address 0 is a hit (the read-miss counter does not change), whereas the claim
requires an access to a VALID-cleared entry to be a miss. -/
theorem claim_C3_counterexample :
    mapFind 0 faLine0Inval.tags = some 0 ∧
    fa_check_tag faLine0Inval 0 = some 0 ∧
    (fa_access faLine0Inval 0 1 false).1.read_misses =
      faLine0Inval.read_misses := by
  decide

/-- C9: in both engine variants, immediately after `victimize(addr)` has
installed the new entry for `addr`, `check_tag(addr)` reports a match, so the
store-miss step `*check_tag(addr) |= DIRTY` never dereferences a null
pointer. -/
theorem claim_C9_no_null_deref (c : CacheSim) (f : FaCache) (addr : Nat)
    (hwf : WF c) (ha : addr < 2 ^ 64) :
    (check_tag (victimize c addr).1 addr).isSome = true ∧
    (fa_check_tag (fa_victimize f addr).1 addr).isSome = true := by
  constructor
  · exact check_tag_after_victimize_isSome hwf.tags_len hwf.sets_pos
      hwf.ways_pos hwf.shift_ge ha
  · unfold fa_check_tag fa_victimize
    dsimp only
    split
    · dsimp only
      rw [mapFind_mapInsert_self]
      rfl
    · dsimp only
      rw [mapFind_mapInsert_self]
      rfl

theorem claim_C9_witness :
    (check_tag (victimize cDirtyVictim 16).1 16).isSome = true ∧
    (fa_check_tag (fa_victimize faFull 16).1 16).isSome = true :=
  claim_C9_no_null_deref cDirtyVictim faFull 16
    ⟨by decide, by decide, by decide, by decide, by decide, by decide⟩
    (by decide)

/-- C7: the factory selects the fully-associative engine exactly when the
parsed configuration has `ways > 4` and `sets = 1`, and the set-associative
engine in every other case. -/
theorem claim_C7_selection (cfg : List Char) (k : CacheKind) (c : Config)
    (h : construct cfg = some (k, c)) :
    k = CacheKind.fa ↔ (4 < c.ways ∧ c.sets = 1) := by
  unfold construct at h
  rcases h1 : splitAtColon cfg with _ | ⟨f1, r1⟩
  · rw [h1] at h
    exact absurd h (by simp)
  · rw [h1] at h
    dsimp only at h
    rcases h2 : splitAtColon r1 with _ | ⟨f2, r2⟩
    · rw [h2] at h
      exact absurd h (by simp)
    · rw [h2] at h
      dsimp only at h
      by_cases hchk : initChecks (toSize (atoiInt f1)) (toSize (atoiInt r2)) = true
      · rw [if_pos hchk] at h
        simp only [Option.some.injEq, Prod.mk.injEq] at h
        obtain ⟨hk, hc⟩ := h
        subst hk
        subst hc
        by_cases hsel : 4 < toSize (atoiInt f2) ∧ toSize (atoiInt f1) = 1
        · rw [if_pos hsel]
          simpa using hsel
        · rw [if_neg hsel]
          constructor
          · intro habs
            exact absurd habs (by simp)
          · intro habs
            exact absurd habs hsel
      · rw [if_neg hchk] at h
        exact absurd h (by simp)

theorem claim_C7_witness :
    (CacheKind.fa = CacheKind.fa ↔ (4 < (8 : Nat) ∧ (1 : Nat) = 1)) ∧
    (CacheKind.sa = CacheKind.fa ↔ (4 < (2 : Nat) ∧ (4 : Nat) = 1)) :=
  ⟨claim_C7_selection cfgScenB1 CacheKind.fa ⟨1, 8, 64⟩ (by decide),
   claim_C7_selection cfgScenB2 CacheKind.sa ⟨4, 2, 64⟩ (by decide)⟩

/-- C1 (amended): construction from a configuration string succeeds exactly
when both colon separators are present, the `sets` field parses (via `atoi`)
to a power of two, and the `lineSize` field parses to a power of two that is
at least 8; every other configuration is rejected before any access can
execute.  The `ways` field is NOT validated: a `ways = 0` configuration is
accepted (see the counterexample). -/
theorem claim_C1_construct (cfg : List Char) :
    ((construct cfg).isSome = true) ↔
      ∃ f1 r1 f2 r2,
        splitAtColon cfg = some (f1, r1) ∧ splitAtColon r1 = some (f2, r2) ∧
        (∃ k, toSize (atoiInt f1) = 2 ^ k) ∧
        (∃ k, toSize (atoiInt r2) = 2 ^ k ∧ 8 ≤ 2 ^ k) := by
  unfold construct
  rcases h1 : splitAtColon cfg with _ | ⟨f1, r1⟩
  · dsimp only
    constructor
    · intro habs
      exact absurd habs (by simp)
    · rintro ⟨f1', r1', f2', r2', hs1, _hs2, _, _⟩
      exact absurd hs1 (by simp)
  · dsimp only
    rcases h2 : splitAtColon r1 with _ | ⟨f2, r2⟩
    · dsimp only
      constructor
      · intro habs
        exact absurd habs (by simp)
      · rintro ⟨f1', r1', f2', r2', hs1, hs2, _, _⟩
        simp only [Option.some.injEq, Prod.mk.injEq] at hs1
        obtain ⟨hf1, hr1⟩ := hs1
        subst hr1
        rw [h2] at hs2
        exact absurd hs2 (by simp)
    · dsimp only
      constructor
      · intro hh
        by_cases hchk :
            initChecks (toSize (atoiInt f1)) (toSize (atoiInt r2)) = true
        · obtain ⟨hp1, hp2⟩ := (initChecks_iff _ _).1 hchk
          exact ⟨f1, r1, f2, r2, rfl, h2, hp1, hp2⟩
        · rw [if_neg hchk] at hh
          exact absurd hh (by simp)
      · rintro ⟨f1', r1', f2', r2', hs1, hs2, hp1, hp2⟩
        simp only [Option.some.injEq, Prod.mk.injEq] at hs1
        obtain ⟨hf1, hr1⟩ := hs1
        subst hf1
        subst hr1
        rw [h2] at hs2
        simp only [Option.some.injEq, Prod.mk.injEq] at hs2
        obtain ⟨hf2, hr2⟩ := hs2
        subst hf2
        subst hr2
        rw [if_pos ((initChecks_iff _ _).2 ⟨hp1, hp2⟩)]
        rfl

/-- C1 counterexample: the configuration `"16:0:64"` has a `ways` field of 0,
violating the claimed `ways ≥ 1` constraint, yet construction succeeds — the
code never examines `ways` during validation, so this violation is not
rejected. -/
theorem claim_C1_counterexample :
    construct cfgWaysZero = some (CacheKind.sa, ⟨16, 0, 64⟩) := by
  decide

/-! ### Field lemmas for the access path -/

theorem check_tag_bump_counters (c : CacheSim) (bytes : Nat) (store : Bool)
    (addr : Nat) :
    check_tag (bump_counters c bytes store) addr = check_tag c addr := by
  cases store <;> rfl

theorem check_tag_bump_miss (c : CacheSim) (store : Bool) (addr : Nat) :
    check_tag (bump_miss c store) addr = check_tag c addr := by
  cases store <;> rfl

theorem bump_counters_sets (c : CacheSim) (b : Nat) (s : Bool) :
    (bump_counters c b s).sets = c.sets := by cases s <;> rfl

theorem bump_counters_ways (c : CacheSim) (b : Nat) (s : Bool) :
    (bump_counters c b s).ways = c.ways := by cases s <;> rfl

theorem bump_counters_linesz (c : CacheSim) (b : Nat) (s : Bool) :
    (bump_counters c b s).linesz = c.linesz := by cases s <;> rfl

theorem bump_counters_idx_shift (c : CacheSim) (b : Nat) (s : Bool) :
    (bump_counters c b s).idx_shift = c.idx_shift := by cases s <;> rfl

theorem bump_counters_tags (c : CacheSim) (b : Nat) (s : Bool) :
    (bump_counters c b s).tags = c.tags := by cases s <;> rfl

theorem bump_counters_lfsr (c : CacheSim) (b : Nat) (s : Bool) :
    (bump_counters c b s).lfsr = c.lfsr := by cases s <;> rfl

theorem bump_counters_mh (c : CacheSim) (b : Nat) (s : Bool) :
    (bump_counters c b s).has_miss_handler = c.has_miss_handler := by
  cases s <;> rfl

theorem bump_counters_writebacks (c : CacheSim) (b : Nat) (s : Bool) :
    (bump_counters c b s).writebacks = c.writebacks := by cases s <;> rfl

theorem bump_counters_read_misses (c : CacheSim) (b : Nat) (s : Bool) :
    (bump_counters c b s).read_misses = c.read_misses := by cases s <;> rfl

theorem bump_counters_write_misses (c : CacheSim) (b : Nat) (s : Bool) :
    (bump_counters c b s).write_misses = c.write_misses := by cases s <;> rfl

theorem bump_miss_sets (c : CacheSim) (s : Bool) :
    (bump_miss c s).sets = c.sets := by cases s <;> rfl

theorem bump_miss_ways (c : CacheSim) (s : Bool) :
    (bump_miss c s).ways = c.ways := by cases s <;> rfl

theorem bump_miss_linesz (c : CacheSim) (s : Bool) :
    (bump_miss c s).linesz = c.linesz := by cases s <;> rfl

theorem bump_miss_idx_shift (c : CacheSim) (s : Bool) :
    (bump_miss c s).idx_shift = c.idx_shift := by cases s <;> rfl

theorem bump_miss_tags (c : CacheSim) (s : Bool) :
    (bump_miss c s).tags = c.tags := by cases s <;> rfl

theorem bump_miss_lfsr (c : CacheSim) (s : Bool) :
    (bump_miss c s).lfsr = c.lfsr := by cases s <;> rfl

theorem bump_miss_mh (c : CacheSim) (s : Bool) :
    (bump_miss c s).has_miss_handler = c.has_miss_handler := by cases s <;> rfl

theorem bump_miss_writebacks (c : CacheSim) (s : Bool) :
    (bump_miss c s).writebacks = c.writebacks := by cases s <;> rfl

theorem bump_miss_read_misses (c : CacheSim) (s : Bool) :
    (bump_miss c s).read_misses =
      c.read_misses + (if s = true then 0 else 1) := by
  cases s <;> simp [bump_miss]

theorem bump_miss_write_misses (c : CacheSim) (s : Bool) :
    (bump_miss c s).write_misses =
      c.write_misses + (if s = true then 1 else 0) := by
  cases s <;> simp [bump_miss]

theorem victimize_eq (c : CacheSim) (addr : Nat) :
    victimize c addr =
      ({ c with
          lfsr := lfsr_next c.lfsr
          tags := c.tags.set
            (((addr >>> c.idx_shift) &&& (c.sets - 1)) * c.ways +
              lfsr_next c.lfsr % c.ways)
            ((addr >>> c.idx_shift) ||| VALID) },
       c.tags.getD
         (((addr >>> c.idx_shift) &&& (c.sets - 1)) * c.ways +
           lfsr_next c.lfsr % c.ways) 0) := rfl

/-- C5: on a missing access, the direction-appropriate miss counter is
incremented; if the evicted slot was both VALID and DIRTY, `writebacks` grows
by exactly one and, when a next level is linked, exactly one
`access(dirtyAddr, lineSize, store=true)` is forwarded carrying the evicted
line's reconstructed address (tag bits with the flags masked, shifted left by
`idx_shift`); then, when a next level is linked, exactly one
`access(lineAlignedAddr, lineSize, store=false)` fetch is forwarded regardless
of the writeback; finally, a store marks the newly installed slot DIRTY. -/
theorem claim_C5_miss_path (c : CacheSim) (addr bytes : Nat) (store : Bool)
    (hwf : WF c) (ha : addr < 2 ^ 64) (hmiss : check_tag c addr = none) :
    (c.tags.getD (((addr >>> c.idx_shift) &&& (c.sets - 1)) * c.ways + lfsr_next c.lfsr % c.ways) 0 &&& (VALID ||| DIRTY) = VALID ||| DIRTY →
      (access c addr bytes store).1.writebacks = c.writebacks + 1 ∧
      (access c addr bytes store).2 =
        (if c.has_miss_handler = true then [MemAccess.mk (((c.tags.getD (((addr >>> c.idx_shift) &&& (c.sets - 1)) * c.ways + lfsr_next c.lfsr % c.ways) 0 &&& NOT64 (VALID ||| DIRTY)) <<< c.idx_shift) % 2 ^ 64) c.linesz true] else []) ++
        (if c.has_miss_handler = true then [MemAccess.mk (addr &&& NOT64 (c.linesz - 1)) c.linesz false] else [])) ∧
    (¬(c.tags.getD (((addr >>> c.idx_shift) &&& (c.sets - 1)) * c.ways + lfsr_next c.lfsr % c.ways) 0 &&& (VALID ||| DIRTY) = VALID ||| DIRTY) →
      (access c addr bytes store).1.writebacks = c.writebacks ∧
      (access c addr bytes store).2 = (if c.has_miss_handler = true then [MemAccess.mk (addr &&& NOT64 (c.linesz - 1)) c.linesz false] else [])) ∧
    (access c addr bytes store).1.write_misses = c.write_misses + (if store = true then 1 else 0) ∧
    (access c addr bytes store).1.read_misses = c.read_misses + (if store = true then 0 else 1) ∧
    (store = true →
      (access c addr bytes store).1.tags.getD (((addr >>> c.idx_shift) &&& (c.sets - 1)) * c.ways + lfsr_next c.lfsr % c.ways) 0 =
        ((addr >>> c.idx_shift) ||| VALID) ||| DIRTY) := by
  have hb : check_tag (bump_counters c bytes store) addr = none := by
    rw [check_tag_bump_counters, hmiss]
  have hpos : ((addr >>> c.idx_shift) &&& (c.sets - 1)) * c.ways + lfsr_next c.lfsr % c.ways < c.tags.length :=
    victimize_pos_lt addr hwf.tags_len hwf.sets_pos hwf.ways_pos
  cases store
  case false =>
    unfold access
    dsimp only
    rw [hb]
    dsimp only
    simp only [victimize_eq, bump_counters_sets, bump_counters_ways,
      bump_counters_linesz, bump_counters_idx_shift, bump_counters_tags,
      bump_counters_lfsr, bump_counters_mh, bump_counters_writebacks,
      bump_counters_read_misses, bump_counters_write_misses, bump_miss_sets,
      bump_miss_ways, bump_miss_linesz, bump_miss_idx_shift, bump_miss_tags,
      bump_miss_lfsr, bump_miss_mh, bump_miss_writebacks, reduceIte]
    by_cases hwb : c.tags.getD (((addr >>> c.idx_shift) &&& (c.sets - 1)) * c.ways + lfsr_next c.lfsr % c.ways) 0 &&& (VALID ||| DIRTY) = VALID ||| DIRTY
    · simp only [if_pos hwb]
      refine ⟨fun _ => ⟨by first | rfl | trivial, by first | rfl | trivial⟩,
        fun hn => absurd hwb hn, by first | rfl | trivial,
        by first | rfl | trivial, fun hst => absurd hst (by simp)⟩
    · simp only [if_neg hwb]
      refine ⟨fun hy => absurd hy hwb,
        fun _ => ⟨by first | rfl | trivial, by first | rfl | trivial⟩,
        by first | rfl | trivial, by first | rfl | trivial,
        fun hst => absurd hst (by simp)⟩
  case true =>
    unfold access
    dsimp only
    rw [hb]
    dsimp only
    simp only [victimize_eq, bump_counters_sets, bump_counters_ways,
      bump_counters_linesz, bump_counters_idx_shift, bump_counters_tags,
      bump_counters_lfsr, bump_counters_mh, bump_counters_writebacks,
      bump_counters_read_misses, bump_counters_write_misses, bump_miss_sets,
      bump_miss_ways, bump_miss_linesz, bump_miss_idx_shift, bump_miss_tags,
      bump_miss_lfsr, bump_miss_mh, bump_miss_writebacks, reduceIte]
    have h0 : check_tag (bump_miss (bump_counters c bytes true) true) addr =
        none := hmiss
    have hre : check_tag
        (victimize (bump_miss (bump_counters c bytes true) true) addr).1 addr =
        some (((addr >>> c.idx_shift) &&& (c.sets - 1)) * c.ways + lfsr_next c.lfsr % c.ways) :=
      check_tag_after_victimize_miss hwf.tags_len hwf.sets_pos hwf.ways_pos
        hwf.shift_ge ha h0
    by_cases hwb : c.tags.getD (((addr >>> c.idx_shift) &&& (c.sets - 1)) * c.ways + lfsr_next c.lfsr % c.ways) 0 &&& (VALID ||| DIRTY) = VALID ||| DIRTY
    · simp only [if_pos hwb]
      split
      · rename_i i heq
        have heq2 : check_tag
            (victimize (bump_miss (bump_counters c bytes true) true) addr).1
              addr = some i := heq
        rw [heq2] at hre
        obtain rfl : i = ((addr >>> c.idx_shift) &&& (c.sets - 1)) * c.ways + lfsr_next c.lfsr % c.ways := Option.some_injective _ hre
        refine ⟨fun _ => ⟨by first | rfl | trivial, by first | rfl | trivial⟩,
          fun hn => absurd hwb hn, by first | rfl | trivial,
          by first | rfl | trivial, fun _ => ?_⟩
        simp only [set_dirty]
        try dsimp only
        rw [getD_set_self hpos,
          getD_set_self (by rw [List.length_set]; exact hpos)]
      · rename_i heq
        have heq2 : check_tag
            (victimize (bump_miss (bump_counters c bytes true) true) addr).1
              addr = none := heq
        rw [heq2] at hre
        exact absurd hre (by simp)
    · simp only [if_neg hwb]
      split
      · rename_i i heq
        have heq2 : check_tag
            (victimize (bump_miss (bump_counters c bytes true) true) addr).1
              addr = some i := heq
        rw [heq2] at hre
        obtain rfl : i = ((addr >>> c.idx_shift) &&& (c.sets - 1)) * c.ways + lfsr_next c.lfsr % c.ways := Option.some_injective _ hre
        refine ⟨fun hy => absurd hy hwb,
          fun _ => ⟨by first | rfl | trivial, by first | rfl | trivial⟩,
          by first | rfl | trivial, by first | rfl | trivial, fun _ => ?_⟩
        simp only [set_dirty]
        try dsimp only
        rw [getD_set_self hpos,
          getD_set_self (by rw [List.length_set]; exact hpos)]
      · rename_i heq
        have heq2 : check_tag
            (victimize (bump_miss (bump_counters c bytes true) true) addr).1
              addr = none := heq
        rw [heq2] at hre
        exact absurd hre (by simp)

theorem claim_C5_witness :
    (access cDirtyVictim 16 4 true).1.writebacks =
      cDirtyVictim.writebacks + 1 ∧
    (access cDirtyVictim 16 4 true).2 =
      [MemAccess.mk 8 8 true, MemAccess.mk 16 8 false] := by
  have h := claim_C5_miss_path cDirtyVictim 16 4 true
    ⟨by decide, by decide, by decide, by decide, by decide, by decide⟩
    (by decide) (by decide)
  obtain ⟨h1, _, _, _, _⟩ := h
  have h2 := h1 (by decide)
  refine ⟨h2.1, ?_⟩
  rw [h2.2]
  decide

/-! ### Map-operation lemmas for the fully-associative engine -/

theorem mapSet_length (k v : Nat) : ∀ l, (mapSet k v l).length = l.length := by
  intro l
  induction l with
  | nil => rfl
  | cons p rest ih =>
    obtain ⟨k1, v1⟩ := p
    unfold mapSet
    by_cases h : k = k1
    · rw [if_pos h]
      rfl
    · rw [if_neg h]
      simp [ih]

theorem mapSet_keys (k v : Nat) :
    ∀ l, (mapSet k v l).map Prod.fst = l.map Prod.fst := by
  intro l
  induction l with
  | nil => rfl
  | cons p rest ih =>
    obtain ⟨k1, v1⟩ := p
    unfold mapSet
    by_cases h : k = k1
    · rw [if_pos h]
      simp [h]
    · rw [if_neg h]
      simp [ih]

theorem mapInsert_length_le (k v : Nat) :
    ∀ l, (mapInsert k v l).length ≤ l.length + 1 := by
  intro l
  induction l with
  | nil => simp [mapInsert]
  | cons p rest ih =>
    obtain ⟨k1, v1⟩ := p
    unfold mapInsert
    by_cases h1 : k < k1
    · rw [if_pos h1]
      simp
    · rw [if_neg h1]
      by_cases h2 : k = k1
      · rw [if_pos h2]
        simp
      · rw [if_neg h2]
        simp only [List.length_cons]
        omega

theorem mapInsert_keys_mem (k v : Nat) :
    ∀ l p, p ∈ mapInsert k v l → p.1 = k ∨ p.1 ∈ l.map Prod.fst := by
  intro l
  induction l with
  | nil =>
    intro p hp
    simp only [mapInsert, List.mem_singleton] at hp
    subst hp
    exact Or.inl rfl
  | cons q rest ih =>
    obtain ⟨k1, v1⟩ := q
    intro p hp
    unfold mapInsert at hp
    by_cases h1 : k < k1
    · rw [if_pos h1] at hp
      simp only [List.mem_cons] at hp
      rcases hp with rfl | rfl | hp
      · exact Or.inl rfl
      · right
        simp
      · right
        simp only [List.map_cons, List.mem_cons]
        exact Or.inr (List.mem_map_of_mem Prod.fst hp)
    · rw [if_neg h1] at hp
      by_cases h2 : k = k1
      · rw [if_pos h2] at hp
        simp only [List.mem_cons] at hp
        rcases hp with rfl | hp
        · exact Or.inl rfl
        · right
          simp only [List.map_cons, List.mem_cons]
          exact Or.inr (List.mem_map_of_mem Prod.fst hp)
      · rw [if_neg h2] at hp
        simp only [List.mem_cons] at hp
        rcases hp with rfl | hp
        · right
          simp
        · rcases ih p hp with h | h
          · exact Or.inl h
          · right
            simp only [List.map_cons, List.mem_cons]
            exact Or.inr h

theorem mem_keys_mapInsert (k v : Nat) :
    ∀ l p, p ∈ l → p.1 ∈ (mapInsert k v l).map Prod.fst := by
  intro l
  induction l with
  | nil =>
    intro p hp
    exact absurd hp (by simp)
  | cons q rest ih =>
    obtain ⟨k1, v1⟩ := q
    intro p hp
    simp only [List.mem_cons] at hp
    unfold mapInsert
    by_cases h1 : k < k1
    · rw [if_pos h1]
      rcases hp with rfl | hp
      · simp
      · simp only [List.map_cons, List.mem_cons]
        exact Or.inr (Or.inr (List.mem_map_of_mem Prod.fst hp))
    · by_cases h2 : k = k1
      · rw [if_neg h1, if_pos h2]
        rcases hp with rfl | hp
        · simp [h2]
        · simp only [List.map_cons, List.mem_cons]
          exact Or.inr (List.mem_map_of_mem Prod.fst hp)
      · rw [if_neg h1, if_neg h2]
        rcases hp with rfl | hp
        · simp
        · simp only [List.map_cons, List.mem_cons]
          exact Or.inr (ih p hp)

theorem mapSorted_iff_keys (l : List (Nat × Nat)) :
    MapSorted l ↔ (l.map Prod.fst).Pairwise (fun a b => a < b) := by
  unfold MapSorted
  exact (List.pairwise_map).symm

theorem mapSorted_mapSet (k v : Nat) (l : List (Nat × Nat))
    (h : MapSorted l) : MapSorted (mapSet k v l) := by
  rw [mapSorted_iff_keys, mapSet_keys]
  exact (mapSorted_iff_keys l).1 h

theorem mapSorted_mapInsert (k v : Nat) :
    ∀ l, MapSorted l → MapSorted (mapInsert k v l) := by
  intro l
  induction l with
  | nil =>
    intro _
    simp [mapInsert, MapSorted]
  | cons q rest ih =>
    obtain ⟨k1, v1⟩ := q
    intro hs
    rw [MapSorted, List.pairwise_cons] at hs
    obtain ⟨h1, h2⟩ := hs
    unfold mapInsert
    by_cases hc1 : k < k1
    · rw [if_pos hc1]
      rw [MapSorted, List.pairwise_cons]
      constructor
      · intro p hp
        simp only [List.mem_cons] at hp
        rcases hp with rfl | hp
        · exact hc1
        · exact lt_trans hc1 (h1 p hp)
      · rw [List.pairwise_cons]
        exact ⟨h1, h2⟩
    · rw [if_neg hc1]
      by_cases hc2 : k = k1
      · rw [if_pos hc2]
        rw [MapSorted, List.pairwise_cons]
        refine ⟨?_, h2⟩
        intro p hp
        rw [hc2]
        exact h1 p hp
      · rw [if_neg hc2]
        rw [MapSorted, List.pairwise_cons]
        constructor
        · intro p hp
          rcases mapInsert_keys_mem k v rest p hp with h | h
          · rw [h]
            omega
          · simp only [List.mem_map] at h
            obtain ⟨q, hq, hq2⟩ := h
            rw [← hq2]
            exact h1 q hq
        · exact ih h2

/-! ### Field lemmas for the fully-associative access path -/

theorem fa_bump_counters_tags (f : FaCache) (b : Nat) (s : Bool) :
    (fa_bump_counters f b s).tags = f.tags := by cases s <;> rfl

theorem fa_bump_counters_ways (f : FaCache) (b : Nat) (s : Bool) :
    (fa_bump_counters f b s).ways = f.ways := by cases s <;> rfl

theorem fa_bump_counters_idx_shift (f : FaCache) (b : Nat) (s : Bool) :
    (fa_bump_counters f b s).idx_shift = f.idx_shift := by cases s <;> rfl

theorem fa_bump_counters_lfsr (f : FaCache) (b : Nat) (s : Bool) :
    (fa_bump_counters f b s).lfsr = f.lfsr := by cases s <;> rfl

theorem fa_bump_counters_linesz (f : FaCache) (b : Nat) (s : Bool) :
    (fa_bump_counters f b s).linesz = f.linesz := by cases s <;> rfl

theorem fa_bump_counters_mh (f : FaCache) (b : Nat) (s : Bool) :
    (fa_bump_counters f b s).has_miss_handler = f.has_miss_handler := by
  cases s <;> rfl

theorem fa_bump_miss_tags (f : FaCache) (s : Bool) :
    (fa_bump_miss f s).tags = f.tags := by cases s <;> rfl

theorem fa_bump_miss_ways (f : FaCache) (s : Bool) :
    (fa_bump_miss f s).ways = f.ways := by cases s <;> rfl

theorem fa_bump_miss_idx_shift (f : FaCache) (s : Bool) :
    (fa_bump_miss f s).idx_shift = f.idx_shift := by cases s <;> rfl

theorem fa_bump_miss_lfsr (f : FaCache) (s : Bool) :
    (fa_bump_miss f s).lfsr = f.lfsr := by cases s <;> rfl

theorem fa_bump_miss_linesz (f : FaCache) (s : Bool) :
    (fa_bump_miss f s).linesz = f.linesz := by cases s <;> rfl

theorem fa_bump_miss_mh (f : FaCache) (s : Bool) :
    (fa_bump_miss f s).has_miss_handler = f.has_miss_handler := by
  cases s <;> rfl

theorem fa_victimize_eq_full {f : FaCache} (addr : Nat)
    (h : f.tags.length = f.ways) :
    fa_victimize f addr =
      ({ f with
          lfsr := lfsr_next f.lfsr
          tags := mapInsert (addr >>> f.idx_shift)
            ((addr >>> f.idx_shift) ||| VALID)
            (f.tags.eraseIdx (lfsr_next f.lfsr % f.ways)) },
       (f.tags.getD (lfsr_next f.lfsr % f.ways) (0, 0)).2) := by
  unfold fa_victimize
  dsimp only
  rw [if_pos h]

theorem fa_victimize_eq_notfull {f : FaCache} (addr : Nat)
    (h : ¬ f.tags.length = f.ways) :
    fa_victimize f addr =
      ({ f with
          tags := mapInsert (addr >>> f.idx_shift)
            ((addr >>> f.idx_shift) ||| VALID) f.tags },
       0) := by
  unfold fa_victimize
  dsimp only
  rw [if_neg h]

theorem fa_access_bounds (f : FaCache) (addr bytes : Nat) (store : Bool)
    (hways : 1 ≤ f.ways) (hlen : f.tags.length ≤ f.ways)
    (hs : MapSorted f.tags) :
    (fa_access f addr bytes store).1.tags.length ≤ f.ways ∧
    MapSorted (fa_access f addr bytes store).1.tags ∧
    (fa_access f addr bytes store).1.ways = f.ways := by
  unfold fa_access
  dsimp only
  split
  · rename_i v _
    cases store
    · rw [if_neg Bool.false_ne_true]
      refine ⟨?_, ?_, ?_⟩
      · rw [fa_bump_counters_tags]
        exact hlen
      · rw [fa_bump_counters_tags]
        exact hs
      · rw [fa_bump_counters_ways]
    · rw [if_pos rfl]
      unfold fa_set_dirty
      dsimp only
      refine ⟨?_, ?_, ?_⟩
      · rw [mapSet_length, fa_bump_counters_tags]
        exact hlen
      · rw [fa_bump_counters_tags]
        exact mapSorted_mapSet _ _ _ hs
      · rw [fa_bump_counters_ways]
  · by_cases hfull : f.tags.length = f.ways
    · have hfull2 :
          (fa_bump_miss (fa_bump_counters f bytes store) store).tags.length =
            (fa_bump_miss (fa_bump_counters f bytes store) store).ways := by
        rw [fa_bump_miss_tags, fa_bump_counters_tags, fa_bump_miss_ways,
          fa_bump_counters_ways]
        exact hfull
      rw [fa_victimize_eq_full addr hfull2]
      dsimp only
      simp only [fa_bump_miss_tags, fa_bump_counters_tags, fa_bump_miss_ways,
        fa_bump_counters_ways, fa_bump_miss_idx_shift,
        fa_bump_counters_idx_shift, fa_bump_miss_lfsr, fa_bump_counters_lfsr]
      have hk : lfsr_next f.lfsr % f.ways < f.tags.length := by
        rw [hfull]
        exact Nat.mod_lt _ (by omega)
      have hlenI : ∀ k2 v2,
          (mapInsert k2 v2
            (f.tags.eraseIdx (lfsr_next f.lfsr % f.ways))).length ≤ f.ways := by
        intro k2 v2
        have h1 := mapInsert_length_le k2 v2
          (f.tags.eraseIdx (lfsr_next f.lfsr % f.ways))
        rw [List.length_eraseIdx_of_lt hk] at h1
        omega
      have hsI : ∀ k2 v2, MapSorted (mapInsert k2 v2
          (f.tags.eraseIdx (lfsr_next f.lfsr % f.ways))) := by
        intro k2 v2
        exact mapSorted_mapInsert _ _ _
          (List.Pairwise.sublist (List.eraseIdx_sublist _ _) hs)
      by_cases hwb : (f.tags.getD (lfsr_next f.lfsr % f.ways) (0, 0)).2 &&&
          (VALID ||| DIRTY) = VALID ||| DIRTY
      · simp only [if_pos hwb]
        cases store
        · rw [if_neg Bool.false_ne_true]
          exact ⟨hlenI _ _, hsI _ _, rfl⟩
        · rw [if_pos rfl]
          split
          · rename_i v2 _
            unfold fa_set_dirty
            dsimp only
            refine ⟨?_, ?_, rfl⟩
            · rw [mapSet_length]
              exact hlenI _ _
            · exact mapSorted_mapSet _ _ _ (hsI _ _)
          · exact ⟨hlenI _ _, hsI _ _, rfl⟩
      · simp only [if_neg hwb]
        cases store
        · rw [if_neg Bool.false_ne_true]
          exact ⟨hlenI _ _, hsI _ _, rfl⟩
        · rw [if_pos rfl]
          split
          · rename_i v2 _
            unfold fa_set_dirty
            dsimp only
            refine ⟨?_, ?_, rfl⟩
            · rw [mapSet_length]
              exact hlenI _ _
            · exact mapSorted_mapSet _ _ _ (hsI _ _)
          · exact ⟨hlenI _ _, hsI _ _, rfl⟩
    · have hfull2 : ¬
          (fa_bump_miss (fa_bump_counters f bytes store) store).tags.length =
            (fa_bump_miss (fa_bump_counters f bytes store) store).ways := by
        rw [fa_bump_miss_tags, fa_bump_counters_tags, fa_bump_miss_ways,
          fa_bump_counters_ways]
        exact hfull
      rw [fa_victimize_eq_notfull addr hfull2]
      dsimp only
      simp only [fa_bump_miss_tags, fa_bump_counters_tags, fa_bump_miss_ways,
        fa_bump_counters_ways, fa_bump_miss_idx_shift,
        fa_bump_counters_idx_shift, fa_bump_miss_lfsr, fa_bump_counters_lfsr]
      rw [if_neg (show ¬((0 : Nat) &&& (VALID ||| DIRTY) = VALID ||| DIRTY)
        by decide)]
      have hlenI : ∀ k2 v2,
          (mapInsert k2 v2 f.tags).length ≤ f.ways := by
        intro k2 v2
        have h1 := mapInsert_length_le k2 v2 f.tags
        omega
      have hsI : ∀ k2 v2, MapSorted (mapInsert k2 v2 f.tags) :=
        fun k2 v2 => mapSorted_mapInsert _ _ _ hs
      cases store
      · rw [if_neg Bool.false_ne_true]
        exact ⟨hlenI _ _, hsI _ _, rfl⟩
      · rw [if_pos rfl]
        split
        · rename_i v2 _
          unfold fa_set_dirty
          dsimp only
          refine ⟨?_, ?_, rfl⟩
          · rw [mapSet_length]
            exact hlenI _ _
          · exact mapSorted_mapSet _ _ _ (hsI _ _)
        · exact ⟨hlenI _ _, hsI _ _, rfl⟩

theorem fa_ci_step_bounds (cl iv : Bool) (f : FaCache) (cur : Nat) :
    (fa_ci_step cl iv f cur).tags.length = f.tags.length ∧
    (fa_ci_step cl iv f cur).ways = f.ways ∧
    (MapSorted f.tags → MapSorted (fa_ci_step cl iv f cur).tags) := by
  unfold fa_ci_step
  split
  · exact ⟨rfl, rfl, fun h => h⟩
  · rename_i v _
    dsimp only
    exact ⟨by rw [mapSet_length], rfl, fun h => mapSorted_mapSet _ _ _ h⟩

theorem foldl_ci_bounds (cl iv : Bool) :
    ∀ (lines : List Nat) (f : FaCache),
      (lines.foldl (fa_ci_step cl iv) f).tags.length = f.tags.length ∧
      (lines.foldl (fa_ci_step cl iv) f).ways = f.ways ∧
      (MapSorted f.tags →
        MapSorted (lines.foldl (fa_ci_step cl iv) f).tags) := by
  intro lines
  induction lines with
  | nil => exact fun f => ⟨rfl, rfl, fun h => h⟩
  | cons a rest ih =>
    intro f
    simp only [List.foldl_cons]
    obtain ⟨h1, h2, h3⟩ := ih (fa_ci_step cl iv f a)
    obtain ⟨g1, g2, g3⟩ := fa_ci_step_bounds cl iv f a
    exact ⟨by rw [h1, g1], by rw [h2, g2], fun h => h3 (g3 h)⟩

theorem fa_clean_invalidate_bounds (f : FaCache) (a b : Nat) (cl iv : Bool) :
    (fa_clean_invalidate f a b cl iv).1.tags.length = f.tags.length ∧
    (fa_clean_invalidate f a b cl iv).1.ways = f.ways ∧
    (MapSorted f.tags →
      MapSorted (fa_clean_invalidate f a b cl iv).1.tags) := by
  unfold fa_clean_invalidate
  dsimp only
  exact foldl_ci_bounds cl iv _ f

theorem fa_run_bounds (ops : List FaOp) :
    ∀ f : FaCache, 1 ≤ f.ways → f.tags.length ≤ f.ways → MapSorted f.tags →
      (fa_run f ops).tags.length ≤ f.ways ∧ MapSorted (fa_run f ops).tags ∧
      (fa_run f ops).ways = f.ways := by
  induction ops with
  | nil => exact fun f _ h2 h3 => ⟨h2, h3, rfl⟩
  | cons op rest ih =>
    intro f h1 h2 h3
    have hstep : fa_run f (op :: rest) = fa_run (fa_step f op) rest := rfl
    rw [hstep]
    cases op with
    | acc a b s =>
      obtain ⟨g1, g2, g3⟩ := fa_access_bounds f a b s h1 h2 h3
      obtain ⟨r1, r2, r3⟩ := ih (fa_access f a b s).1
        (by rw [g3]; exact h1) (by rw [g3]; exact g1) g2
      rw [g3] at r1
      exact ⟨r1, r2, r3.trans g3⟩
    | ci a b cl iv =>
      obtain ⟨g1, g2, g3⟩ := fa_clean_invalidate_bounds f a b cl iv
      obtain ⟨r1, r2, r3⟩ := ih (fa_clean_invalidate f a b cl iv).1
        (by rw [g2]; exact h1) (by rw [g2, g1]; exact h2) (g3 h3)
      rw [g2] at r1
      exact ⟨r1, r2, r3.trans g2⟩

/-- C8: in the fully-associative engine the sparse tag mapping's occupancy
never exceeds `ways` after any sequence of interface operations (and the
ascending-key order is maintained); `victimize(addr)` removes exactly one
entry — the one at positional offset `lfsr.next() % ways` of the
ascending-key iteration order, returning its prior value — precisely when the
occupancy equals `ways` at insertion time, and otherwise evicts nothing
(every existing key survives) and returns 0, the empty entry. -/
theorem claim_C8_fa_victimize (f : FaCache) (ops : List FaOp) (addr : Nat)
    (hways : 1 ≤ f.ways) (hlen : f.tags.length ≤ f.ways)
    (hsorted : MapSorted f.tags) :
    ((fa_run f ops).tags.length ≤ f.ways ∧ MapSorted (fa_run f ops).tags) ∧
    (f.tags.length = f.ways →
      fa_victimize f addr =
        ({ f with
            lfsr := lfsr_next f.lfsr
            tags := mapInsert (addr >>> f.idx_shift)
              ((addr >>> f.idx_shift) ||| VALID)
              (f.tags.eraseIdx (lfsr_next f.lfsr % f.ways)) },
         (f.tags.getD (lfsr_next f.lfsr % f.ways) (0, 0)).2) ∧
      (fa_victimize f addr).1.tags.length ≤ f.ways) ∧
    (f.tags.length ≠ f.ways →
      (fa_victimize f addr).2 = 0 ∧
      (∀ p ∈ f.tags, p.1 ∈ (fa_victimize f addr).1.tags.map Prod.fst) ∧
      (fa_victimize f addr).1.tags.length ≤ f.tags.length + 1) := by
  refine ⟨?_, ?_, ?_⟩
  · obtain ⟨a, b, _⟩ := fa_run_bounds ops f hways hlen hsorted
    exact ⟨a, b⟩
  · intro hfull
    refine ⟨fa_victimize_eq_full addr hfull, ?_⟩
    rw [fa_victimize_eq_full addr hfull]
    dsimp only
    have hk : lfsr_next f.lfsr % f.ways < f.tags.length := by
      rw [hfull]
      exact Nat.mod_lt _ (by omega)
    have h1 := mapInsert_length_le (addr >>> f.idx_shift)
      ((addr >>> f.idx_shift) ||| VALID)
      (f.tags.eraseIdx (lfsr_next f.lfsr % f.ways))
    rw [List.length_eraseIdx_of_lt hk] at h1
    omega
  · intro hne
    rw [fa_victimize_eq_notfull addr hne]
    dsimp only
    refine ⟨rfl, ?_, mapInsert_length_le _ _ _⟩
    intro p hp
    exact mem_keys_mapInsert _ _ _ p hp

theorem claim_C8_witness :
    (fa_run faFull [FaOp.acc 1000 1 true, FaOp.ci 0 64 true true]).tags.length
        ≤ faFull.ways ∧
      MapSorted (fa_run faFull
        [FaOp.acc 1000 1 true, FaOp.ci 0 64 true true]).tags :=
  (claim_C8_fa_victimize faFull [FaOp.acc 1000 1 true, FaOp.ci 0 64 true true]
    1000 (by decide) (by decide) (by unfold MapSorted; decide)).1

/-! ### clean_invalidate step lemmas -/

theorem ci_step_struct (cl iv : Bool) (c : CacheSim) (a : Nat) :
    (ci_step cl iv c a).sets = c.sets ∧
    (ci_step cl iv c a).ways = c.ways ∧
    (ci_step cl iv c a).idx_shift = c.idx_shift ∧
    (ci_step cl iv c a).linesz = c.linesz ∧
    (ci_step cl iv c a).has_miss_handler = c.has_miss_handler ∧
    (ci_step cl iv c a).read_misses = c.read_misses ∧
    (ci_step cl iv c a).tags.length = c.tags.length := by
  unfold ci_step
  split
  · exact ⟨rfl, rfl, rfl, rfl, rfl, rfl, rfl⟩
  · rename_i i _
    dsimp only
    exact ⟨rfl, rfl, rfl, rfl, rfl, rfl, by rw [List.length_set]⟩

theorem ci_step_clean_masked (c : CacheSim) (a : Nat)
    (hlen : c.tags.length = c.sets * c.ways) (hsets : 1 ≤ c.sets) (j : Nat) :
    ((ci_step true false c a).tags.getD j 0) &&& NOT64 DIRTY =
      (c.tags.getD j 0) &&& NOT64 DIRTY := by
  unfold ci_step
  rcases hca : check_tag c a with _ | i
  · rfl
  · dsimp only
    have hi : i < c.tags.length := check_tag_lt hlen hsets hca
    by_cases hij : i = j
    · subst hij
      rw [getD_set_self hi, if_neg Bool.false_ne_true]
      by_cases hd : (c.tags.getD i 0) &&& DIRTY ≠ 0
      · rw [if_pos (by simpa using hd)]
        exact and_nd_idem _
      · rw [if_neg (by simpa using hd)]
    · rw [getD_set_ne hij]

theorem ci_step_clean_check_tag (c : CacheSim) (a : Nat)
    (hlen : c.tags.length = c.sets * c.ways) (hsets : 1 ≤ c.sets) (x : Nat) :
    check_tag (ci_step true false c a) x = check_tag c x := by
  obtain ⟨h1, h2, h3, _, _, _, _⟩ := ci_step_struct true false c a
  exact check_tag_congr x h1 h2 h3
    (fun j => ci_step_clean_masked c a hlen hsets j)

theorem ci_step_clean_writebacks (c : CacheSim) (a : Nat) :
    (ci_step true false c a).writebacks =
      c.writebacks + (if residentDirty c a = true then 1 else 0) := by
  rcases hca : check_tag c a with _ | i
  · unfold ci_step residentDirty
    rw [hca]
    simp
  · unfold ci_step residentDirty
    rw [hca]
    dsimp only
    by_cases hd : (c.tags.getD i 0) &&& DIRTY ≠ 0
    · rw [if_pos (by simpa using hd),
        if_pos (by simpa using hd)]
    · rw [if_neg (by simpa using hd),
        if_neg (by simpa using hd)]
      rfl

theorem ci_step_clean_dirty_cleared (c : CacheSim) (a : Nat)
    (hlen : c.tags.length = c.sets * c.ways) (hsets : 1 ≤ c.sets) {i : Nat}
    (h : check_tag c a = some i) :
    ((ci_step true false c a).tags.getD i 0) &&& DIRTY = 0 := by
  unfold ci_step
  rw [h]
  dsimp only
  have hi : i < c.tags.length := check_tag_lt hlen hsets h
  rw [getD_set_self hi, if_neg Bool.false_ne_true]
  by_cases hd : (c.tags.getD i 0) &&& DIRTY ≠ 0
  · rw [if_pos (by simpa using hd), dirty_eq]
    exact and_not64_two_pow_self _ (by omega)
  · rw [if_neg (by simpa using hd)]
    omega

theorem ci_step_clean_valid (c : CacheSim) (a : Nat)
    (hlen : c.tags.length = c.sets * c.ways) (hsets : 1 ≤ c.sets) (j : Nat) :
    ((ci_step true false c a).tags.getD j 0) &&& VALID =
      (c.tags.getD j 0) &&& VALID := by
  unfold ci_step
  rcases hca : check_tag c a with _ | i
  · rfl
  · dsimp only
    have hi : i < c.tags.length := check_tag_lt hlen hsets hca
    by_cases hij : i = j
    · subst hij
      rw [getD_set_self hi, if_neg Bool.false_ne_true]
      by_cases hd : (c.tags.getD i 0) &&& DIRTY ≠ 0
      · rw [if_pos (by simpa using hd), dirty_eq, valid_eq]
        exact and_not64_two_pow_other _ (by omega) (by omega)
      · rw [if_neg (by simpa using hd)]
    · rw [getD_set_ne hij]

theorem ci_step_clean_dirty_mono (c : CacheSim) (a : Nat)
    (hlen : c.tags.length = c.sets * c.ways) (hsets : 1 ≤ c.sets) (j : Nat)
    (h0 : (c.tags.getD j 0) &&& DIRTY = 0) :
    ((ci_step true false c a).tags.getD j 0) &&& DIRTY = 0 := by
  unfold ci_step
  rcases hca : check_tag c a with _ | i
  · exact h0
  · dsimp only
    have hi : i < c.tags.length := check_tag_lt hlen hsets hca
    by_cases hij : i = j
    · subst hij
      rw [getD_set_self hi, if_neg Bool.false_ne_true]
      by_cases hd : (c.tags.getD i 0) &&& DIRTY ≠ 0
      · exact absurd h0 hd
      · rw [if_neg (by simpa using hd)]
        exact h0
    · rw [getD_set_ne hij]
      exact h0

theorem ci_step_clean_residentDirty (c : CacheSim) (a b : Nat)
    (hlen : c.tags.length = c.sets * c.ways) (hsets : 1 ≤ c.sets)
    (hs3 : 3 ≤ c.idx_shift) (ha : a < 2 ^ 64) (hb : b < 2 ^ 64)
    (hne : a >>> c.idx_shift ≠ b >>> c.idx_shift) :
    residentDirty (ci_step true false c a) b = residentDirty c b := by
  unfold residentDirty
  rw [ci_step_clean_check_tag c a hlen hsets b]
  rcases hcb : check_tag c b with _ | i
  · rfl
  · have hv : (ci_step true false c a).tags.getD i 0 &&& DIRTY =
        (c.tags.getD i 0) &&& DIRTY := by
      unfold ci_step
      rcases hca : check_tag c a with _ | ia
      · rfl
      · dsimp only
        have hia : ia ≠ i := fun hEq =>
          hne (check_tag_inj hs3 ha hb (hEq ▸ hca) hcb)
        rw [getD_set_ne hia]
    dsimp only
    rw [hv]

theorem ciFold_clean (L : List Nat) :
    ∀ c : CacheSim, c.tags.length = c.sets * c.ways → 1 ≤ c.sets →
      3 ≤ c.idx_shift → (∀ x ∈ L, x < 2 ^ 64) →
      L.Pairwise (fun x y => x >>> c.idx_shift ≠ y >>> c.idx_shift) →
      (L.foldl (ci_step true false) c).sets = c.sets ∧
      (L.foldl (ci_step true false) c).ways = c.ways ∧
      (L.foldl (ci_step true false) c).idx_shift = c.idx_shift ∧
      (L.foldl (ci_step true false) c).linesz = c.linesz ∧
      (L.foldl (ci_step true false) c).has_miss_handler = c.has_miss_handler ∧
      (L.foldl (ci_step true false) c).read_misses = c.read_misses ∧
      (L.foldl (ci_step true false) c).tags.length = c.tags.length ∧
      (∀ x, check_tag (L.foldl (ci_step true false) c) x = check_tag c x) ∧
      (L.foldl (ci_step true false) c).writebacks =
        c.writebacks + (L.filter (fun x => residentDirty c x)).length ∧
      (∀ j, ((L.foldl (ci_step true false) c).tags.getD j 0) &&& VALID =
        (c.tags.getD j 0) &&& VALID) ∧
      (∀ j, (c.tags.getD j 0) &&& DIRTY = 0 →
        ((L.foldl (ci_step true false) c).tags.getD j 0) &&& DIRTY = 0) ∧
      (∀ x ∈ L, ∀ i, check_tag c x = some i →
        ((L.foldl (ci_step true false) c).tags.getD i 0) &&& DIRTY = 0) := by
  induction L with
  | nil =>
    intro c hlen hsets hs3 hbd hpw
    refine ⟨rfl, rfl, rfl, rfl, rfl, rfl, rfl, fun x => rfl, rfl,
      fun j => rfl, fun j h => h, ?_⟩
    intro x hx
    exact absurd hx (List.not_mem_nil x)
  | cons a L ih =>
    intro c hlen hsets hs3 hbd hpw
    rw [List.pairwise_cons] at hpw
    obtain ⟨hpa, hpwL⟩ := hpw
    have ha : a < 2 ^ 64 := hbd a (List.mem_cons_self a L)
    obtain ⟨e1, e2, e3, e4, e5, e6, e7⟩ := ci_step_struct true false c a
    have hlen1 : (ci_step true false c a).tags.length =
        (ci_step true false c a).sets * (ci_step true false c a).ways := by
      rw [e7, e1, e2]; exact hlen
    have hsets1 : 1 ≤ (ci_step true false c a).sets := by rw [e1]; exact hsets
    have hs31 : 3 ≤ (ci_step true false c a).idx_shift := by
      rw [e3]; exact hs3
    have hbd1 : ∀ x ∈ L, x < 2 ^ 64 := fun x hx => hbd x (List.mem_cons_of_mem a hx)
    have hpw1 : L.Pairwise (fun x y =>
        x >>> (ci_step true false c a).idx_shift ≠
        y >>> (ci_step true false c a).idx_shift) := by
      rw [e3]; exact hpwL
    have hfold : (a :: L).foldl (ci_step true false) c =
        L.foldl (ci_step true false) (ci_step true false c a) := rfl
    obtain ⟨g1, g2, g3, g4, g5, g6, g7, g8, g9, g10, g11, g12⟩ :=
      ih (ci_step true false c a) hlen1 hsets1 hs31 hbd1 hpw1
    have hct : ∀ x, check_tag (ci_step true false c a) x = check_tag c x :=
      fun x => ci_step_clean_check_tag c a hlen hsets x
    refine ⟨?_, ?_, ?_, ?_, ?_, ?_, ?_, ?_, ?_, ?_, ?_, ?_⟩
    · rw [hfold, g1, e1]
    · rw [hfold, g2, e2]
    · rw [hfold, g3, e3]
    · rw [hfold, g4, e4]
    · rw [hfold, g5, e5]
    · rw [hfold, g6, e6]
    · rw [hfold, g7, e7]
    · intro x
      rw [hfold, g8 x, hct x]
    · rw [hfold, g9, ci_step_clean_writebacks c a]
      have hfc : L.filter (fun x => residentDirty (ci_step true false c a) x) =
          L.filter (fun x => residentDirty c x) := by
        apply List.filter_congr
        intro x hx
        exact ci_step_clean_residentDirty c a x hlen hsets hs3 ha (hbd1 x hx)
          (hpa x hx)
      rw [hfc, List.filter_cons]
      by_cases hres : residentDirty c a = true
      · rw [if_pos (by rw [hres]), hres, if_pos rfl, List.length_cons]
        omega
      · rw [if_neg (by simpa using hres), if_neg hres]
        omega
    · intro j
      rw [hfold, g10 j, ci_step_clean_valid c a hlen hsets j]
    · intro j h0
      rw [hfold]
      exact g11 j (ci_step_clean_dirty_mono c a hlen hsets j h0)
    · intro x hx i hcx
      rw [hfold]
      rcases List.mem_cons.mp hx with hxa | hxL
      · exact g11 i (ci_step_clean_dirty_cleared c a hlen hsets (hxa ▸ hcx))
      · exact g12 x hxL i (by rw [hct x]; exact hcx)

theorem scanGo_congr_match (w : Nat) (t1 t2 : List Nat) (idx tag : Nat)
    (h : ∀ j, j < w →
      (tag = (t1.getD (idx * w + j) 0) &&& NOT64 DIRTY ↔
        tag = (t2.getD (idx * w + j) 0) &&& NOT64 DIRTY)) :
    ∀ n i, scanGo w t1 idx tag n i = scanGo w t2 idx tag n i := by
  intro n
  induction n with
  | zero =>
    intro i
    simp only [scanGo]
  | succ n ih =>
    intro i
    simp only [scanGo]
    by_cases hw : i < w
    · rw [if_pos hw, if_pos hw]
      by_cases hm : tag = (t1.getD (idx * w + i) 0) &&& NOT64 DIRTY
      · rw [if_pos hm, if_pos ((h i hw).mp hm)]
      · rw [if_neg hm, if_neg (fun hc => hm ((h i hw).mpr hc))]
        exact ih (i + 1)
    · rw [if_neg hw, if_neg hw]

theorem check_tag_congr_iff {c c2 : CacheSim} (x : Nat)
    (hs : c.sets = c2.sets) (hw : c.ways = c2.ways)
    (hi : c.idx_shift = c2.idx_shift)
    (ht : ∀ j, ((x >>> c2.idx_shift) ||| VALID =
        (c.tags.getD j 0) &&& NOT64 DIRTY ↔
      (x >>> c2.idx_shift) ||| VALID = (c2.tags.getD j 0) &&& NOT64 DIRTY)) :
    check_tag c x = check_tag c2 x := by
  unfold check_tag
  rw [hs, hw, hi]
  exact scanGo_congr_match c2.ways c.tags c2.tags _ _ (fun j _ => ht _) _ 0

theorem ci_step_inval_valid_cleared (cl : Bool) (c : CacheSim) (a : Nat)
    (hlen : c.tags.length = c.sets * c.ways) (hsets : 1 ≤ c.sets) {i : Nat}
    (h : check_tag c a = some i) :
    ((ci_step cl true c a).tags.getD i 0) &&& VALID = 0 := by
  unfold ci_step
  rw [h]
  dsimp only
  have hi : i < c.tags.length := check_tag_lt hlen hsets h
  rw [getD_set_self hi, if_pos rfl, valid_eq]
  exact and_not64_two_pow_self _ (by omega)

theorem ci_step_inval_valid_mono (cl : Bool) (c : CacheSim) (a : Nat)
    (hlen : c.tags.length = c.sets * c.ways) (hsets : 1 ≤ c.sets) (j : Nat)
    (h0 : (c.tags.getD j 0) &&& VALID = 0) :
    ((ci_step cl true c a).tags.getD j 0) &&& VALID = 0 := by
  unfold ci_step
  rcases hca : check_tag c a with _ | i
  · exact h0
  · dsimp only
    have hi : i < c.tags.length := check_tag_lt hlen hsets hca
    by_cases hij : i = j
    · subst hij
      rw [getD_set_self hi, if_pos rfl, valid_eq]
      exact and_not64_two_pow_self _ (by omega)
    · rw [getD_set_ne hij]
      exact h0

theorem ci_step_inval_getD_ne (cl : Bool) (c : CacheSim) (a : Nat) {i : Nat}
    (h : check_tag c a = some i) (j : Nat) (hj : j ≠ i) :
    (ci_step cl true c a).tags.getD j 0 = c.tags.getD j 0 := by
  unfold ci_step
  rw [h]
  dsimp only
  exact getD_set_ne (fun he => hj he.symm)

theorem ci_step_inval_check_tag (cl : Bool) (c : CacheSim) (a x : Nat)
    (hlen : c.tags.length = c.sets * c.ways) (hsets : 1 ≤ c.sets)
    (hs3 : 3 ≤ c.idx_shift) (ha : a < 2 ^ 64) (hx : x < 2 ^ 64)
    (hne : a >>> c.idx_shift ≠ x >>> c.idx_shift) :
    check_tag (ci_step cl true c a) x = check_tag c x := by
  rcases hca : check_tag c a with _ | i
  · have hid : ci_step cl true c a = c := by
      unfold ci_step
      rw [hca]
    rw [hid]
  · obtain ⟨j0, _, _, hm⟩ := check_tag_some hca
    obtain ⟨s1, s2, s3, _, _, _, _⟩ := ci_step_struct cl true c a
    have hvi : ((ci_step cl true c a).tags.getD i 0) &&& VALID = 0 :=
      ci_step_inval_valid_cleared cl c a hlen hsets hca
    apply check_tag_congr_iff x s1 s2 s3
    intro j
    by_cases hji : j = i
    · subst hji
      constructor
      · intro hL
        exact absurd hL.symm (invalid_no_match hvi (x >>> c.idx_shift))
      · intro hR
        have hxa : (x >>> c.idx_shift) ||| VALID =
            (a >>> c.idx_shift) ||| VALID := hR.trans hm.symm
        exact absurd ((or_valid_inj
          (lt_trans (tag_lt hx hs3) (by norm_num))
          (lt_trans (tag_lt ha hs3) (by norm_num))).1 hxa).symm hne
    · rw [ci_step_inval_getD_ne cl c a hca j hji]

theorem ciFold_struct (cl iv : Bool) (L : List Nat) :
    ∀ c : CacheSim,
      (L.foldl (ci_step cl iv) c).sets = c.sets ∧
      (L.foldl (ci_step cl iv) c).ways = c.ways ∧
      (L.foldl (ci_step cl iv) c).idx_shift = c.idx_shift ∧
      (L.foldl (ci_step cl iv) c).linesz = c.linesz ∧
      (L.foldl (ci_step cl iv) c).has_miss_handler = c.has_miss_handler ∧
      (L.foldl (ci_step cl iv) c).tags.length = c.tags.length := by
  induction L with
  | nil => exact fun c => ⟨rfl, rfl, rfl, rfl, rfl, rfl⟩
  | cons a L ih =>
    intro c
    obtain ⟨e1, e2, e3, e4, e5, _, e7⟩ := ci_step_struct cl iv c a
    obtain ⟨g1, g2, g3, g4, g5, g7⟩ := ih (ci_step cl iv c a)
    exact ⟨g1.trans e1, g2.trans e2, g3.trans e3, g4.trans e4,
      g5.trans e5, g7.trans e7⟩


theorem ci_step_true_writebacks (iv : Bool) (c : CacheSim) (a : Nat) :
    (ci_step true iv c a).writebacks =
      c.writebacks + (if residentDirty c a = true then 1 else 0) := by
  rcases hca : check_tag c a with _ | i
  · unfold ci_step residentDirty
    rw [hca]
    simp
  · unfold ci_step residentDirty
    rw [hca]
    dsimp only
    by_cases hd : (c.tags.getD i 0) &&& DIRTY ≠ 0
    · rw [if_pos (by simpa using hd), if_pos (by simpa using hd)]
    · rw [if_neg (by simpa using hd), if_neg (by simpa using hd)]
      rfl

theorem and_nv_dirty (y : Nat) (h : y &&& DIRTY = 0) :
    (y &&& NOT64 VALID) &&& DIRTY = 0 := by
  rw [Nat.and_assoc, Nat.and_comm (NOT64 VALID) DIRTY, ← Nat.and_assoc, h,
    Nat.zero_and]

theorem ci_step_inval_dirty_cleared_of_clean (c : CacheSim) (a : Nat)
    (hlen : c.tags.length = c.sets * c.ways) (hsets : 1 ≤ c.sets) {i : Nat}
    (h : check_tag c a = some i) :
    ((ci_step true true c a).tags.getD i 0) &&& DIRTY = 0 := by
  unfold ci_step
  rw [h]
  dsimp only
  have hi : i < c.tags.length := check_tag_lt hlen hsets h
  rw [getD_set_self hi, if_pos rfl]
  apply and_nv_dirty
  by_cases hd : (c.tags.getD i 0) &&& DIRTY ≠ 0
  · rw [if_pos (by simpa using hd), dirty_eq]
    exact and_not64_two_pow_self _ (by omega)
  · rw [if_neg (by simpa using hd)]
    omega

theorem ci_step_inval_dirty_mono (cl : Bool) (c : CacheSim) (a : Nat)
    (hlen : c.tags.length = c.sets * c.ways) (hsets : 1 ≤ c.sets) (j : Nat)
    (h0 : (c.tags.getD j 0) &&& DIRTY = 0) :
    ((ci_step cl true c a).tags.getD j 0) &&& DIRTY = 0 := by
  unfold ci_step
  rcases hca : check_tag c a with _ | i
  · exact h0
  · dsimp only
    have hi : i < c.tags.length := check_tag_lt hlen hsets hca
    by_cases hij : i = j
    · subst hij
      rw [getD_set_self hi, if_pos rfl]
      apply and_nv_dirty
      by_cases hd : (c.tags.getD i 0) &&& DIRTY ≠ 0
      · exact absurd h0 hd
      · rw [if_neg (by
          intro hcond
          rw [Bool.and_eq_true] at hcond
          exact hd (of_decide_eq_true hcond.2))]
        exact h0
    · rw [getD_set_ne hij]
      exact h0

theorem ci_step_inval_residentDirty (cl : Bool) (c : CacheSim) (a b : Nat)
    (hlen : c.tags.length = c.sets * c.ways) (hsets : 1 ≤ c.sets)
    (hs3 : 3 ≤ c.idx_shift) (ha : a < 2 ^ 64) (hb : b < 2 ^ 64)
    (hne : a >>> c.idx_shift ≠ b >>> c.idx_shift) :
    residentDirty (ci_step cl true c a) b = residentDirty c b := by
  unfold residentDirty
  rw [ci_step_inval_check_tag cl c a b hlen hsets hs3 ha hb hne]
  rcases hcb : check_tag c b with _ | i
  · rfl
  · have hv : (ci_step cl true c a).tags.getD i 0 = c.tags.getD i 0 := by
      rcases hca : check_tag c a with _ | ia
      · have hid : ci_step cl true c a = c := by
          unfold ci_step
          rw [hca]
        rw [hid]
      · have hia : i ≠ ia := fun hEq =>
          hne (check_tag_inj hs3 ha hb hca (hEq ▸ hcb))
        exact ci_step_inval_getD_ne cl c a hca i hia
    dsimp only
    rw [hv]
theorem ciFold_inval (cl : Bool) (L : List Nat) :
    ∀ c : CacheSim, c.tags.length = c.sets * c.ways → 1 ≤ c.sets →
      3 ≤ c.idx_shift → (∀ x ∈ L, x < 2 ^ 64) →
      L.Pairwise (fun x y => x >>> c.idx_shift ≠ y >>> c.idx_shift) →
      (∀ j, (c.tags.getD j 0) &&& VALID = 0 →
        ((L.foldl (ci_step cl true) c).tags.getD j 0) &&& VALID = 0) ∧
      (∀ j, (c.tags.getD j 0) &&& DIRTY = 0 →
        ((L.foldl (ci_step cl true) c).tags.getD j 0) &&& DIRTY = 0) ∧
      (cl = true → (L.foldl (ci_step cl true) c).writebacks =
        c.writebacks + (L.filter (fun x => residentDirty c x)).length) ∧
      (∀ x ∈ L, ∀ i, check_tag c x = some i →
        ((L.foldl (ci_step cl true) c).tags.getD i 0) &&& VALID = 0 ∧
        (cl = true →
          ((L.foldl (ci_step cl true) c).tags.getD i 0) &&& DIRTY = 0)) := by
  induction L with
  | nil =>
    intro c hlen hsets hs3 hbd hpw
    exact ⟨fun j h => h, fun j h => h, fun _ => by simp,
      fun x hx => absurd hx (List.not_mem_nil x)⟩
  | cons a L ih =>
    intro c hlen hsets hs3 hbd hpw
    rw [List.pairwise_cons] at hpw
    obtain ⟨hpa, hpwL⟩ := hpw
    have ha : a < 2 ^ 64 := hbd a (List.mem_cons_self a L)
    obtain ⟨e1, e2, e3, _, _, _, e7⟩ := ci_step_struct cl true c a
    have hlen1 : (ci_step cl true c a).tags.length =
        (ci_step cl true c a).sets * (ci_step cl true c a).ways := by
      rw [e7, e1, e2]; exact hlen
    have hsets1 : 1 ≤ (ci_step cl true c a).sets := by rw [e1]; exact hsets
    have hs31 : 3 ≤ (ci_step cl true c a).idx_shift := by rw [e3]; exact hs3
    have hbd1 : ∀ x ∈ L, x < 2 ^ 64 :=
      fun x hx => hbd x (List.mem_cons_of_mem a hx)
    have hpw1 : L.Pairwise (fun x y =>
        x >>> (ci_step cl true c a).idx_shift ≠
        y >>> (ci_step cl true c a).idx_shift) := by
      rw [e3]; exact hpwL
    obtain ⟨g1, g2, g3, g4⟩ := ih (ci_step cl true c a) hlen1 hsets1 hs31 hbd1 hpw1
    have hfold : (a :: L).foldl (ci_step cl true) c =
        L.foldl (ci_step cl true) (ci_step cl true c a) := rfl
    refine ⟨?_, ?_, ?_, ?_⟩
    · intro j h0
      rw [hfold]
      exact g1 j (ci_step_inval_valid_mono cl c a hlen hsets j h0)
    · intro j h0
      rw [hfold]
      exact g2 j (ci_step_inval_dirty_mono cl c a hlen hsets j h0)
    · intro hcl
      subst hcl
      rw [hfold, g3 rfl, ci_step_true_writebacks true c a]
      have hfc : L.filter (fun x => residentDirty (ci_step true true c a) x) =
          L.filter (fun x => residentDirty c x) := by
        apply List.filter_congr
        intro x hx
        exact ci_step_inval_residentDirty true c a x hlen hsets hs3 ha
          (hbd1 x hx) (hpa x hx)
      rw [hfc, List.filter_cons]
      by_cases hres : residentDirty c a = true
      · rw [if_pos (by rw [hres]), hres, if_pos rfl, List.length_cons]
        omega
      · rw [if_neg (by simpa using hres), if_neg hres]
        omega
    · intro x hx i hcx
      rw [hfold]
      rcases List.mem_cons.mp hx with hxa | hxL
      · constructor
        · exact g1 i (ci_step_inval_valid_cleared cl c a hlen hsets (hxa ▸ hcx))
        · intro hcl
          subst hcl
          exact g2 i
            (ci_step_inval_dirty_cleared_of_clean c a hlen hsets (hxa ▸ hcx))
      · have hcx1 : check_tag (ci_step cl true c a) x = some i := by
          rw [ci_step_inval_check_tag cl c a x hlen hsets hs3 ha
            (hbd1 x hxL) (hpa x hxL)]
          exact hcx
        exact g4 x hxL i hcx1

theorem lineAddrs_eq (c : CacheSim) (addr bytes : Nat)
    (hlz : c.linesz = 2 ^ c.idx_shift)
    (hnw : addr + bytes + c.linesz - 1 < 2 ^ 64) :
    lineAddrs c addr bytes =
      (List.range ((addr + bytes + c.linesz - 1) / c.linesz - addr / c.linesz)).map
        (fun k => c.linesz * (addr / c.linesz) + k * c.linesz) := by
  have hp : 0 < c.linesz := by
    rw [hlz]
    exact Nat.pos_pow_of_pos _ (by norm_num)
  have ha64 : addr < 2 ^ 64 := by omega
  have hstart : addr &&& NOT64 (c.linesz - 1) = c.linesz * (addr / c.linesz) := by
    rw [hlz]
    exact and_not64_mask c.idx_shift ha64
  have hend : (addr + bytes + c.linesz - 1) &&& NOT64 (c.linesz - 1) =
      c.linesz * ((addr + bytes + c.linesz - 1) / c.linesz) := by
    rw [hlz]
    exact and_not64_mask c.idx_shift (by omega)
  have hmod : (addr + bytes + c.linesz - 1) % 2 ^ 64 =
      addr + bytes + c.linesz - 1 := Nat.mod_eq_of_lt hnw
  have hq : addr / c.linesz ≤ (addr + bytes + c.linesz - 1) / c.linesz :=
    Nat.div_le_div_right (by omega)
  have hsub : c.linesz * ((addr + bytes + c.linesz - 1) / c.linesz) -
      c.linesz * (addr / c.linesz) =
      ((addr + bytes + c.linesz - 1) / c.linesz - addr / c.linesz) * c.linesz := by
    rw [Nat.sub_mul, Nat.mul_comm c.linesz, Nat.mul_comm c.linesz]
  have hn : (c.linesz * ((addr + bytes + c.linesz - 1) / c.linesz) -
      c.linesz * (addr / c.linesz) + c.linesz - 1) / c.linesz =
      (addr + bytes + c.linesz - 1) / c.linesz - addr / c.linesz := by
    rw [hsub]
    have h1 : ((addr + bytes + c.linesz - 1) / c.linesz - addr / c.linesz) *
        c.linesz + c.linesz - 1 =
        (c.linesz - 1) + ((addr + bytes + c.linesz - 1) / c.linesz -
          addr / c.linesz) * c.linesz := by omega
    rw [h1, Nat.add_mul_div_right _ _ hp, Nat.div_eq_of_lt (by omega)]
    omega
  unfold lineAddrs
  dsimp only
  rw [hmod, hstart, hend, hn]

theorem lineAddrs_bounds (c : CacheSim) (addr bytes : Nat)
    (hlz : c.linesz = 2 ^ c.idx_shift)
    (hnw : addr + bytes + c.linesz - 1 < 2 ^ 64) :
    ∀ x ∈ lineAddrs c addr bytes, x < 2 ^ 64 := by
  have hp : 0 < c.linesz := by
    rw [hlz]
    exact Nat.pos_pow_of_pos _ (by norm_num)
  intro x hx
  rw [lineAddrs_eq c addr bytes hlz hnw] at hx
  simp only [List.mem_map, List.mem_range] at hx
  obtain ⟨k, hk, rfl⟩ := hx
  have h1 : c.linesz * (addr / c.linesz) + k * c.linesz <
      c.linesz * (addr / c.linesz) +
      ((addr + bytes + c.linesz - 1) / c.linesz - addr / c.linesz) * c.linesz := by
    have := (Nat.mul_lt_mul_right hp).mpr hk
    omega
  have h2 : c.linesz * (addr / c.linesz) +
      ((addr + bytes + c.linesz - 1) / c.linesz - addr / c.linesz) * c.linesz =
      c.linesz * ((addr + bytes + c.linesz - 1) / c.linesz) := by
    have hq : addr / c.linesz ≤ (addr + bytes + c.linesz - 1) / c.linesz :=
      Nat.div_le_div_right (by omega)
    rw [Nat.sub_mul]
    have h3 : addr / c.linesz * c.linesz ≤
        (addr + bytes + c.linesz - 1) / c.linesz * c.linesz :=
      Nat.mul_le_mul_right _ hq
    rw [Nat.mul_comm c.linesz ((addr + bytes + c.linesz - 1) / c.linesz),
      Nat.mul_comm c.linesz (addr / c.linesz)]
    omega
  have h4 : c.linesz * ((addr + bytes + c.linesz - 1) / c.linesz) ≤
      addr + bytes + c.linesz - 1 := Nat.mul_div_le _ _
  omega

theorem lineAddrs_pairwise (c : CacheSim) (addr bytes : Nat)
    (hlz : c.linesz = 2 ^ c.idx_shift)
    (hnw : addr + bytes + c.linesz - 1 < 2 ^ 64) :
    (lineAddrs c addr bytes).Pairwise
      (fun x y => x >>> c.idx_shift ≠ y >>> c.idx_shift) := by
  rw [lineAddrs_eq c addr bytes hlz hnw]
  have hsh : ∀ k : Nat,
      (c.linesz * (addr / c.linesz) + k * c.linesz) >>> c.idx_shift =
        addr / c.linesz + k := by
    intro k
    rw [hlz, Nat.shiftRight_eq_div_pow]
    have h1 : 2 ^ c.idx_shift * (addr / 2 ^ c.idx_shift) +
        k * 2 ^ c.idx_shift =
        (addr / 2 ^ c.idx_shift + k) * 2 ^ c.idx_shift := by ring
    rw [h1, Nat.mul_div_cancel _ (Nat.pos_pow_of_pos _ (by norm_num))]
  apply List.Pairwise.map
  · intro k1 k2 hk
    have hk2 : k1 < k2 := hk
    rw [hsh k1, hsh k2]
    omega
  · exact List.pairwise_lt_range _

theorem lineAddrs_mem (c : CacheSim) (addr bytes : Nat)
    (hlz : c.linesz = 2 ^ c.idx_shift)
    (hnw : addr + bytes + c.linesz - 1 < 2 ^ 64) (x : Nat) :
    x ∈ lineAddrs c addr bytes ↔
      (c.linesz ∣ x ∧ c.linesz * (addr / c.linesz) ≤ x ∧
        x < c.linesz * ((addr + bytes + c.linesz - 1) / c.linesz)) := by
  have hp : 0 < c.linesz := by
    rw [hlz]
    exact Nat.pos_pow_of_pos _ (by norm_num)
  rw [lineAddrs_eq c addr bytes hlz hnw]
  simp only [List.mem_map, List.mem_range]
  constructor
  · rintro ⟨k, hk, rfl⟩
    refine ⟨⟨addr / c.linesz + k, by ring⟩, Nat.le_add_right _ _, ?_⟩
    have h1 : c.linesz * (addr / c.linesz) + k * c.linesz =
        (addr / c.linesz + k) * c.linesz := by ring
    have h2 : c.linesz * ((addr + bytes + c.linesz - 1) / c.linesz) =
        ((addr + bytes + c.linesz - 1) / c.linesz) * c.linesz := by ring
    rw [h1, h2]
    exact (Nat.mul_lt_mul_right hp).mpr (by omega)
  · rintro ⟨⟨m, rfl⟩, hlo, hhi⟩
    have hm1 : addr / c.linesz ≤ m := by
      by_contra hcon
      push_neg at hcon
      have := (Nat.mul_lt_mul_left hp).mpr hcon
      omega
    have hm2 : m < (addr + bytes + c.linesz - 1) / c.linesz := by
      by_contra hcon
      push_neg at hcon
      have := Nat.mul_le_mul (le_refl c.linesz) hcon
      omega
    refine ⟨m - addr / c.linesz, by omega, ?_⟩
    have h1 : c.linesz * (addr / c.linesz) +
        (m - addr / c.linesz) * c.linesz =
        (addr / c.linesz + (m - addr / c.linesz)) * c.linesz := by ring
    rw [h1]
    have h2 : addr / c.linesz + (m - addr / c.linesz) = m := by omega
    rw [h2]
    ring

theorem access_read_hit {c : CacheSim} {x i : Nat} (b : Nat)
    (h : check_tag c x = some i) :
    (access c x b false).1.read_misses = c.read_misses := by
  unfold access
  dsimp only
  have hb2 : check_tag (bump_counters c b false) x = some i := by
    rw [check_tag_bump_counters]
    exact h
  rw [hb2]
  dsimp only
  rw [if_neg Bool.false_ne_true]
  exact bump_counters_read_misses c b false

/-- C6: `clean_invalidate(addr, bytes, clean, inval)` visits exactly the
line-aligned addresses of the covering range of `[addr, addr+bytes)` (second
conjunct); the identical call is forwarded to the next level unconditionally
whenever one is linked, even if no local line matched (first conjunct); with
`clean=true, inval=false`, `writebacks` grows by exactly the number K of
visited resident-dirty lines, residency is unchanged, each visited resident
slot has DIRTY cleared and VALID left as it was, and a subsequent access to a
visited resident line is a hit — its `read_misses` counter does not move
(third conjunct); with `inval=true`, every visited resident slot has VALID
cleared regardless of DIRTY and independently of `clean`, and with
`clean=true` as well its DIRTY bit is also cleared and `writebacks` again
grows by exactly K (fourth conjunct).  Hypotheses: a wellformed engine and a
range whose end computation `addr + bytes + linesz - 1` does not wrap at 64
bits. -/
theorem claim_C6_clean_invalidate (c : CacheSim) (addr bytes : Nat)
    (clean inval : Bool) (hwf : WF c)
    (hnw : addr + bytes + c.linesz - 1 < 2 ^ 64) :
    ((clean_invalidate c addr bytes clean inval).2 =
      if c.has_miss_handler = true
        then [CleanInvalCall.mk addr bytes clean inval] else []) ∧
    (∀ x, x ∈ lineAddrs c addr bytes ↔
      (c.linesz ∣ x ∧ c.linesz * (addr / c.linesz) ≤ x ∧
        x < c.linesz * ((addr + bytes + c.linesz - 1) / c.linesz))) ∧
    (clean = true → inval = false →
      (clean_invalidate c addr bytes clean inval).1.writebacks =
        c.writebacks + ((lineAddrs c addr bytes).filter
          (fun x => residentDirty c x)).length ∧
      (∀ x, check_tag (clean_invalidate c addr bytes clean inval).1 x =
        check_tag c x) ∧
      (∀ x ∈ lineAddrs c addr bytes, ∀ i, check_tag c x = some i →
        ((clean_invalidate c addr bytes clean inval).1.tags.getD i 0) &&&
          DIRTY = 0 ∧
        ((clean_invalidate c addr bytes clean inval).1.tags.getD i 0) &&&
          VALID = (c.tags.getD i 0) &&& VALID) ∧
      (∀ x ∈ lineAddrs c addr bytes, ∀ i, check_tag c x = some i →
        (access (clean_invalidate c addr bytes clean inval).1 x 1
          false).1.read_misses =
          (clean_invalidate c addr bytes clean inval).1.read_misses ∧
        (clean_invalidate c addr bytes clean inval).1.read_misses =
          c.read_misses)) ∧
    (inval = true →
      (∀ x ∈ lineAddrs c addr bytes, ∀ i, check_tag c x = some i →
        ((clean_invalidate c addr bytes clean inval).1.tags.getD i 0) &&&
          VALID = 0 ∧
        (clean = true →
          ((clean_invalidate c addr bytes clean inval).1.tags.getD i 0) &&&
            DIRTY = 0)) ∧
      (clean = true →
        (clean_invalidate c addr bytes clean inval).1.writebacks =
          c.writebacks + ((lineAddrs c addr bytes).filter
            (fun x => residentDirty c x)).length)) := by
  have hbd : ∀ x ∈ lineAddrs c addr bytes, x < 2 ^ 64 :=
    lineAddrs_bounds c addr bytes hwf.linesz_eq hnw
  have hpw : (lineAddrs c addr bytes).Pairwise
      (fun x y => x >>> c.idx_shift ≠ y >>> c.idx_shift) :=
    lineAddrs_pairwise c addr bytes hwf.linesz_eq hnw
  refine ⟨?_, ?_, ?_, ?_⟩
  · obtain ⟨_, _, _, _, hmh, _⟩ :=
      ciFold_struct clean inval (lineAddrs c addr bytes) c
    unfold clean_invalidate
    dsimp only
    rw [hmh]
  · exact fun x => lineAddrs_mem c addr bytes hwf.linesz_eq hnw x
  · intro hcl hiv
    subst hcl
    subst hiv
    obtain ⟨g1, g2, g3, g4, g5, g6, g7, g8, g9, g10, g11, g12⟩ :=
      ciFold_clean (lineAddrs c addr bytes) c hwf.tags_len hwf.sets_pos
        hwf.shift_ge hbd hpw
    refine ⟨g9, g8, ?_, ?_⟩
    · intro x hx i hcx
      exact ⟨g12 x hx i hcx, g10 i⟩
    · intro x hx i hcx
      refine ⟨@access_read_hit _ x i 1 ?_, g6⟩
      show check_tag ((lineAddrs c addr bytes).foldl (ci_step true false) c) x =
        some i
      rw [g8 x]
      exact hcx
  · intro hiv
    subst hiv
    obtain ⟨k1, k2, k3, k4⟩ :=
      ciFold_inval clean (lineAddrs c addr bytes) c hwf.tags_len hwf.sets_pos
        hwf.shift_ge hbd hpw
    exact ⟨fun x hx i hcx => k4 x hx i hcx, k3⟩

/-- Witness for C6: on the two-line engine `cTwoLines` (set 0 holds line 0
dirty and line 1 clean), `clean_invalidate 0 16 true false` visits lines 0 and
8, writes back exactly the one resident dirty line, and forwards the identical
call to the linked next level. -/
theorem claim_C6_witness :
    (clean_invalidate cTwoLines 0 16 true false).1.writebacks =
      cTwoLines.writebacks +
        ((lineAddrs cTwoLines 0 16).filter
          (fun x => residentDirty cTwoLines x)).length ∧
    (clean_invalidate cTwoLines 0 16 true false).2 =
      [CleanInvalCall.mk 0 16 true false] ∧
    ((lineAddrs cTwoLines 0 16).filter
      (fun x => residentDirty cTwoLines x)).length = 1 ∧
    lineAddrs cTwoLines 0 16 = [0, 8] := by
  have h := claim_C6_clean_invalidate cTwoLines 0 16 true false
    ⟨by decide, by decide, by decide, by decide, by decide, by decide⟩
    (by decide)
  exact ⟨(h.2.2.1 rfl rfl).1, h.1.trans (by decide), by decide, by decide⟩
